import Mathlib

/-!
The xlang python tool helpers (`src/tool/python/helpers.h`).

A shallow embedding of the helper functions of the python projection tool:
the signature dispatcher, the interface closure resolver and the
method / parameter classifier, followed by theorems about them.

Conventions of the embedding.

* A `TypeDef` is a handle (row index) into the metadata database; equality of
  handles is equality of rows, as in the metadata reader.
* The metadata reader itself is not part of `helpers.h`; what the helpers read
  from it (`get_category`, `GenericParam`, `InterfaceImpl`, flags, attributes
  and the lookup behind `find_required`) is carried by a `database` value.
* Functions that can throw return `Except Failure _`.
* The mutually recursive `collect_required_interfaces` overloads walk the
  database, so they take a recursion budget (`fuel`); exhausting it is the
  distinguished failure `Failure.out_of_fuel`.
* The `while (true)` loop of `get_dotted_name_segments` takes a budget of loop
  turns; exhausting it gives `none`.
-/

namespace xlang

/-! ## Metadata model -/

/-- The `category` enumeration returned by `get_category`. -/
inductive category where
  | interface_type
  | class_type
  | enum_type
  | struct_type
  | delegate_type
  deriving DecidableEq, Repr

/-- The primitive element kinds of a signature. -/
inductive ElementType where
  | Boolean | Char | I1 | U1 | I2 | U2 | I4 | U4 | I8 | U8 | R4 | R8 | String | Object
  deriving DecidableEq, Repr

/-- A `TypeDef` handle: the index of a row of the TypeDef table. -/
abbrev TypeDef := Nat

/-- A `TypeRef` row: a named reference to a definition. -/
structure TypeRef where
  TypeNamespace : String
  TypeName : String
  deriving DecidableEq, Repr

mutual
/-- The coded index `coded_index<TypeDefOrRef>`, with its three tags. -/
inductive coded_index where
  | TypeDef (type : TypeDef)
  | TypeRef (type : TypeRef)
  | TypeSpec (GenericTypeInst : GenericTypeInstSig)
/-- A generic instantiation: the generic type and its arguments. -/
inductive GenericTypeInstSig where
  | mk (GenericType : coded_index) (GenericArgs : List TypeSig)
/-- A type signature: the array marker and the signature element. -/
inductive TypeSig where
  | mk (is_szarray : Bool) (element : TypeSigType)
/-- The variant held by `TypeSig::Type()`. -/
inductive TypeSigType where
  | ElementType (type : ElementType)
  | coded_index (type : coded_index)
  | GenericTypeIndex (index : Nat)
  | GenericTypeInstSig (type : GenericTypeInstSig)
end

/-- The array marker of a signature, `TypeSig::is_szarray()`. -/
def TypeSig.is_szarray : TypeSig → Bool
  | .mk a _ => a

/-- The signature element, `TypeSig::Type()`. -/
def TypeSig.Type_ : TypeSig → TypeSigType
  | .mk _ t => t

/-- The generic type of an instantiation, `GenericTypeInstSig::GenericType()`. -/
def GenericTypeInstSig.GenericType : GenericTypeInstSig → coded_index
  | .mk g _ => g

/-- The arguments of an instantiation, `GenericTypeInstSig::GenericArgs()`. -/
def GenericTypeInstSig.GenericArgs : GenericTypeInstSig → List TypeSig
  | .mk _ args => args

/-- What the helpers read from the metadata reader, per `TypeDef` handle.
The reader is outside `helpers.h`; its answers are the fields of this record. -/
structure database where
  /-- The result of `get_category(type)`. -/
  get_category : TypeDef → category
  /-- The names of `type.GenericParam()`, in declaration order. -/
  GenericParam : TypeDef → List String
  /-- The `Interface()` of each row of `type.InterfaceImpl()`, in declaration order. -/
  InterfaceImpl : TypeDef → List coded_index
  /-- The flag `type.Flags().Abstract()`. -/
  Abstract : TypeDef → Bool
  /-- Whether `get_attribute(type, ns, name)` finds an attribute. -/
  get_attribute : TypeDef → String → String → Bool
  /-- The lookup by (namespace, name) behind `find_required`. -/
  find : TypeRef → Option TypeDef

/-- The ways a helper can stop without a result. -/
inductive Failure where
  /-- An exception raised by `throw_invalid(message)`. -/
  | invalid (message : String)
  /-- The exception of `find_required` for a reference that is not found. -/
  | not_found (type : TypeRef)
  /-- A checked `XLANG_ASSERT` whose condition is false. -/
  | assertion_failed
  /-- The recursion budget of the model ran out. -/
  | out_of_fuel
  deriving DecidableEq, Repr

/-- The call `throw_invalid(message)`. -/
def throw_invalid {α : Type} (message : String) : Except Failure α :=
  .error (.invalid message)

/-- The call `find_required(type)`: the definition a reference names, or an exception. -/
def find_required (db : database) (type : TypeRef) : Except Failure TypeDef :=
  match db.find type with
  | some t => .ok t
  | none => .error (.not_found type)

/-- The two definitions the `XLANG_ASSERT` macro can have. The macro is not
defined in `helpers.h`, so the build's choice is a parameter of the model. -/
inductive assert_mode where
  /-- The macro expands to a checked assertion. -/
  | checked
  /-- The macro expands to nothing. -/
  | compiled_out
  deriving DecidableEq, Repr

/-- The statement `XLANG_ASSERT(condition)`. -/
def XLANG_ASSERT (mode : assert_mode) (condition : Bool) : Except Failure Unit :=
  match mode with
  | .checked => if condition then .ok () else .error .assertion_failed
  | .compiled_out => .ok ()

/-- The helper `starts_with(value, match)` of the base library, which
`helpers.h` calls but does not define: `value` begins with `match`. -/
def starts_with (value : String) (pattern : String) : Bool :=
  value.data.take pattern.data.length == pattern.data

/-! ## Methods and parameters -/

/-- The flags of a `Param` row that the helpers read. -/
structure ParamAttributes where
  In : Bool
  Out : Bool
  deriving DecidableEq, Repr

/-- A row of the Param table. -/
structure Param where
  Flags : ParamAttributes
  Sequence : Nat
  Name : String
  deriving DecidableEq, Repr

/-- A parameter of a method signature blob. -/
structure ParamSig where
  ByRef : Bool
  Type_ : TypeSig

/-- The pair `method_signature::param_t` (the pointer is dereferenced). -/
abbrev param_t := Param × ParamSig

/-- The flags of a `MethodDef` row that the helpers read. -/
structure MethodAttributes where
  RTSpecialName : Bool
  SpecialName : Bool
  Static : Bool
  deriving DecidableEq, Repr

/-- A row of the MethodDef table, with its parameter rows. -/
structure MethodDef where
  Flags : MethodAttributes
  Name : String
  ParamList : List Param
  deriving DecidableEq, Repr

/-- The accessor `MethodDef::SpecialName()`. -/
def MethodDef.SpecialName (method : MethodDef) : Bool :=
  method.Flags.SpecialName

/-- The function `is_constructor`, helpers.h line 364. -/
def is_constructor (method : MethodDef) : Bool :=
  method.Flags.RTSpecialName && method.Name == ".ctor"

/-- The function `is_get_method`, helpers.h line 374. -/
def is_get_method (method : MethodDef) : Bool :=
  method.SpecialName && starts_with method.Name "get_"

/-- The function `is_put_method`, helpers.h line 379. -/
def is_put_method (method : MethodDef) : Bool :=
  method.SpecialName && starts_with method.Name "put_"

/-- The function `is_add_method`, helpers.h line 384. -/
def is_add_method (method : MethodDef) : Bool :=
  method.SpecialName && starts_with method.Name "add_"

/-- The function `is_remove_method`, helpers.h line 389. -/
def is_remove_method (method : MethodDef) : Bool :=
  method.SpecialName && starts_with method.Name "remove_"

/-- The enumeration `param_category`, helpers.h line 394. The enumerator `in`
is written `in_`, `in` being reserved. -/
inductive param_category where
  | in_
  | out
  | pass_array
  | fill_array
  | receive_array
  deriving DecidableEq, Repr

/-- The function `get_param_category(param_t const&)`, helpers.h line 403. -/
def get_param_category (mode : assert_mode) (param : param_t) : Except Failure param_category :=
  if param.2.Type_.is_szarray then
    if param.1.Flags.In then
      .ok .pass_array
    else if param.2.ByRef then
      match XLANG_ASSERT mode param.1.Flags.Out with
      | .error e => .error e
      | .ok _ => .ok .receive_array
    else
      match XLANG_ASSERT mode param.1.Flags.Out with
      | .error e => .error e
      | .ok _ => .ok .fill_array
  else
    if param.1.Flags.In then
      match XLANG_ASSERT mode (!param.1.Flags.Out) with
      | .error e => .error e
      | .ok _ => .ok .in_
    else
      match XLANG_ASSERT mode param.1.Flags.Out with
      | .error e => .error e
      | .ok _ => .ok .out

/-- The enumeration `argument_convention`, helpers.h line 484. -/
inductive argument_convention where
  | no_args
  | single_arg
  | variable_args
  deriving DecidableEq, Repr

/-- The function `get_argument_convention`, helpers.h line 491. -/
def get_argument_convention (method : MethodDef) : argument_convention :=
  if is_constructor method && method.ParamList.isEmpty then
    .no_args
  else if is_get_method method then
    .no_args
  else if is_put_method method || is_add_method method || is_remove_method method then
    .single_arg
  else
    .variable_args

/-- The classification table of the specification (section 4.4), row by row:
array?, in?, by-ref?, out? to the category of the row, `none` outside the table. -/
def classification_table (array in_flag by_ref out_flag : Bool) : Option param_category :=
  match array, in_flag, by_ref, out_flag with
  | true, true, _, _ => some .pass_array
  | true, false, true, true => some .receive_array
  | true, false, false, true => some .fill_array
  | false, true, _, false => some .in_
  | false, false, _, true => some .out
  | _, _, _, _ => none

/-- The table row a parameter's flags select. -/
def table_row (param : param_t) : Option param_category :=
  classification_table param.2.Type_.is_szarray param.1.Flags.In param.2.ByRef param.1.Flags.Out

/-! ## The writer's generic-parameter scope -/

/-- How the writer prints the parts of a signature that do not depend on the
generic-parameter scope. The python writer is not part of `helpers.h`; these
printers are parameters of the model. -/
structure type_printer where
  /-- The text written for a primitive element kind. -/
  write_ElementType : ElementType → String
  /-- The text written for a definition. -/
  write_TypeDef : TypeDef → String
  /-- The text written for a reference. -/
  write_TypeRef : TypeRef → String
  /-- The text written for an instantiation, from the text of its generic type and of its arguments. -/
  write_GenericTypeInst : String → List String → String

/-- Modelled from the spec: the `writer` class of the python tool, which
`helpers.h` uses but does not define. Section 4.3 step 2 of the specification
gives its behaviour: a stack of generic-substitution scopes, the innermost
first; a generic-parameter reference is written as the binding the innermost
scope has at its index. -/
structure writer where
  printer : type_printer
  generic_param_stack : List (List String)

/-- Modelled from the spec: the text the writer produces for a generic-parameter
reference, the binding of the innermost scope at that index. A reference
without a binding writes nothing. -/
def writer.write_GenericTypeIndex (w : writer) (index : Nat) : String :=
  match w.generic_param_stack with
  | [] => ""
  | scope :: _ => scope.getD index ""

mutual
/-- Modelled from the spec: `w.write_temp("%", signature)` for a type signature. -/
def writer.write_TypeSig (w : writer) : TypeSig → String
  | .mk _ element => writer.write_TypeSigType w element
/-- Modelled from the spec: the writer applied to the variant of a signature. -/
def writer.write_TypeSigType (w : writer) : TypeSigType → String
  | .ElementType type => w.printer.write_ElementType type
  | .coded_index type => writer.write_coded_index w type
  | .GenericTypeIndex index => w.write_GenericTypeIndex index
  | .GenericTypeInstSig type => writer.write_GenericTypeInstSig w type
/-- Modelled from the spec: the writer applied to a coded index. -/
def writer.write_coded_index (w : writer) : coded_index → String
  | .TypeDef type => w.printer.write_TypeDef type
  | .TypeRef type => w.printer.write_TypeRef type
  | .TypeSpec sig => writer.write_GenericTypeInstSig w sig
/-- Modelled from the spec: the writer applied to an instantiation. -/
def writer.write_GenericTypeInstSig (w : writer) : GenericTypeInstSig → String
  | .mk type args =>
    w.printer.write_GenericTypeInst (writer.write_coded_index w type) (writer.write_GenericArgs w args)
/-- Modelled from the spec: the writer applied to each argument of an instantiation, in order. -/
def writer.write_GenericArgs (w : writer) : List TypeSig → List String
  | [] => []
  | arg :: args => writer.write_TypeSig w arg :: writer.write_GenericArgs w args
end

/-- Modelled from the spec: `w.push_generic_params(type.GenericParam())`, the
scope of a template: its declared generic parameter names. The value returned
is the writer as the guarded block sees it; the caller's writer is unchanged,
which is what the guard's destructor restores. -/
def writer.push_generic_params (w : writer) (names : List String) : writer :=
  { w with generic_param_stack := names :: w.generic_param_stack }

/-- Modelled from the spec: `w.push_generic_params(sig)`, the scope of an
instantiation: its arguments, written under the scope in force at the push. -/
def writer.push_generic_params_sig (w : writer) (sig : GenericTypeInstSig) : writer :=
  w.push_generic_params (w.write_GenericArgs sig.GenericArgs)

/-! ## Interface closure -/

/-- The record `interface_info`, helpers.h line 234. -/
structure interface_info where
  type : TypeDef
  type_arguments : List String
  deriving DecidableEq, Repr

/-- The function `push_interface_info`, helpers.h line 240: `find_if` for an entry of the
same definition, `push_back` when there is none. -/
def push_interface_info (interfaces : List interface_info) (info : interface_info) :
    List interface_info :=
  match interfaces.find? (fun i => i.type == info.type) with
  | none => interfaces ++ [info]
  | some _ => interfaces

/-- The range-for loops of `collect_required_interfaces`: the body runs on each
edge in declaration order, threading the list; an exception leaves the loop. -/
def for_each_InterfaceImpl
    (body : List interface_info → coded_index → Except Failure (List interface_info)) :
    List interface_info → List coded_index → Except Failure (List interface_info)
  | interfaces, [] => .ok interfaces
  | interfaces, ii :: rest =>
    match body interfaces ii with
    | .error e => .error e
    | .ok interfaces1 => for_each_InterfaceImpl body interfaces1 rest

/-- The switch that opens `collect_required_interfaces(GenericTypeInstSig)`,
helpers.h lines 277-288: the definition of the generic type. -/
def generic_type_definition (db : database) (sig : GenericTypeInstSig) : Except Failure TypeDef :=
  match sig.GenericType with
  | .TypeDef type => .ok type
  | .TypeRef type => find_required db type
  | .TypeSpec _ => throw_invalid "collect_required_interfaces"

mutual
/-- The function `collect_required_interfaces(writer&, vector&, TypeDef const&)`, helpers.h line 255. -/
def collect_required_interfaces_TypeDef (db : database) :
    Nat → writer → List interface_info → TypeDef → Except Failure (List interface_info)
  | 0, _, _, _ => .error .out_of_fuel
  | fuel + 1, w, interfaces, type =>
    let interfaces1 :=
      if db.get_category type = category.interface_type then
        push_interface_info interfaces { type := type, type_arguments := db.GenericParam type }
      else interfaces
    let guard := w.push_generic_params (db.GenericParam type)
    for_each_InterfaceImpl (fun acc ii => collect_required_interfaces db fuel guard acc ii)
      interfaces1 (db.InterfaceImpl type)
/-- The function `collect_required_interfaces(writer&, vector&, GenericTypeInstSig const&)`, helpers.h line 275. -/
def collect_required_interfaces_GenericTypeInstSig (db : database) :
    Nat → writer → List interface_info → GenericTypeInstSig → Except Failure (List interface_info)
  | 0, _, _, _ => .error .out_of_fuel
  | fuel + 1, w, interfaces, sig =>
    match generic_type_definition db sig with
    | .error e => .error e
    | .ok type =>
      let info : interface_info :=
        { type := type, type_arguments := w.write_GenericArgs sig.GenericArgs }
      let interfaces1 := push_interface_info interfaces info
      let guard := w.push_generic_params_sig sig
      for_each_InterfaceImpl (fun acc ii => collect_required_interfaces db fuel guard acc ii)
        interfaces1 (db.InterfaceImpl type)
/-- The function `collect_required_interfaces(writer&, vector&, coded_index<TypeDefOrRef> const&)`, helpers.h line 308. -/
def collect_required_interfaces (db : database) :
    Nat → writer → List interface_info → coded_index → Except Failure (List interface_info)
  | 0, _, _, _ => .error .out_of_fuel
  | fuel + 1, w, sigs, index =>
    match index with
    | .TypeDef type => collect_required_interfaces_TypeDef db fuel w sigs type
    | .TypeRef type =>
      match find_required db type with
      | .error e => .error e
      | .ok type1 => collect_required_interfaces_TypeDef db fuel w sigs type1
    | .TypeSpec sig => collect_required_interfaces_GenericTypeInstSig db fuel w sigs sig
end

/-- The function `get_required_interfaces`, helpers.h line 324. The writer it constructs
prints with `printer`. -/
def get_required_interfaces (db : database) (printer : type_printer) (fuel : Nat) (type : TypeDef) :
    Except Failure (List interface_info) :=
  let w : writer := { printer := printer, generic_param_stack := [] }
  let guard := w.push_generic_params (db.GenericParam type)
  collect_required_interfaces_TypeDef db fuel guard [] type

/-! ## The implements graph and the discovery sequence -/

/-- The definition an implements edge leads to: the definition itself, the
definition a reference resolves to, or the generic type of an instantiation. -/
def edge_target (db : database) : coded_index → Except Failure TypeDef
  | .TypeDef type => .ok type
  | .TypeRef type => find_required db type
  | .TypeSpec sig => generic_type_definition db sig

/-- One implements edge: `a` declares an edge whose target is `b`. -/
def implements (db : database) (a b : TypeDef) : Prop :=
  ∃ ii ∈ db.InterfaceImpl a, edge_target db ii = .ok b

/-- The definitions of the implements graph of `start`: `start` and what it reaches. -/
def reachable (db : database) (start x : TypeDef) : Prop :=
  Relation.ReflTransGen (implements db) start x

/-- The discovery sequences of the edges of a node, one after the other in
declaration order. -/
def concat_visits (visit : coded_index → Except Failure (List interface_info)) :
    List coded_index → Except Failure (List interface_info)
  | [] => .ok []
  | ii :: rest =>
    match visit ii with
    | .error e => .error e
    | .ok first =>
      match concat_visits visit rest with
      | .error e => .error e
      | .ok others => .ok (first ++ others)

mutual
/-- The depth-first pre-order sequence of section 4.3 of the specification for
a definition: the node itself when it is an interface (step 1), then the
sequences of its edges under the node's own scope (steps 2 and 3). Nothing is
deduplicated here. -/
def discovery_sequence_TypeDef (db : database) :
    Nat → writer → TypeDef → Except Failure (List interface_info)
  | 0, _, _ => .error .out_of_fuel
  | fuel + 1, w, type =>
    match concat_visits (fun ii => discovery_sequence db fuel
        (w.push_generic_params (db.GenericParam type)) ii) (db.InterfaceImpl type) with
    | .error e => .error e
    | .ok others =>
      .ok ((if db.get_category type = category.interface_type then
              [{ type := type, type_arguments := db.GenericParam type }]
            else []) ++ others)
/-- The depth-first pre-order sequence for an edge that is an instantiation
(step 3): the generic type with the substituted arguments, then the sequences
of that interface's edges under the scope bound to the arguments. -/
def discovery_sequence_GenericTypeInstSig (db : database) :
    Nat → writer → GenericTypeInstSig → Except Failure (List interface_info)
  | 0, _, _ => .error .out_of_fuel
  | fuel + 1, w, sig =>
    match generic_type_definition db sig with
    | .error e => .error e
    | .ok type =>
      match concat_visits (fun ii => discovery_sequence db fuel
          (w.push_generic_params_sig sig) ii) (db.InterfaceImpl type) with
      | .error e => .error e
      | .ok others =>
        .ok ({ type := type, type_arguments := w.write_GenericArgs sig.GenericArgs } :: others)
/-- The depth-first pre-order sequence for an edge, by its tag. -/
def discovery_sequence (db : database) :
    Nat → writer → coded_index → Except Failure (List interface_info)
  | 0, _, _ => .error .out_of_fuel
  | fuel + 1, w, index =>
    match index with
    | .TypeDef type => discovery_sequence_TypeDef db fuel w type
    | .TypeRef type =>
      match find_required db type with
      | .error e => .error e
      | .ok type1 => discovery_sequence_TypeDef db fuel w type1
    | .TypeSpec sig => discovery_sequence_GenericTypeInstSig db fuel w sig
end

/-- The depth-first pre-order sequence of a starting definition, under the
writer `get_required_interfaces` sets up. -/
def required_interfaces_sequence (db : database) (printer : type_printer) (fuel : Nat)
    (type : TypeDef) : Except Failure (List interface_info) :=
  discovery_sequence_TypeDef db fuel
    (writer.push_generic_params { printer := printer, generic_param_stack := [] }
      (db.GenericParam type)) type

/-- A sequence with every entry removed whose definition is in `listed` or
occurs earlier in the sequence. -/
def remove_listed (listed : List TypeDef) : List interface_info → List interface_info
  | [] => []
  | info :: rest =>
    if info.type ∈ listed then remove_listed listed rest
    else info :: remove_listed (info.type :: listed) rest

/-- A sequence with every later occurrence of an already listed definition removed. -/
def remove_later_occurrences (sequence : List interface_info) : List interface_info :=
  remove_listed [] sequence

/-- Every declared edge of the implements graph of `start` resolves to a definition. -/
def edges_resolvable (db : database) (start : TypeDef) : Prop :=
  ∀ x, reachable db start x → ∀ ii ∈ db.InterfaceImpl x, ∃ b, edge_target db ii = .ok b

/-- The implements graph of `start` has finitely many definitions. -/
def graph_finite (db : database) (start : TypeDef) : Prop :=
  Set.Finite {x | reachable db start x}

/-- No definition of the implements graph of `start` reaches itself. -/
def graph_acyclic (db : database) (start : TypeDef) : Prop :=
  ∀ x, reachable db start x → ¬ Relation.TransGen (implements db) x x

/-- Every definition `start` reaches through implements edges is an interface. -/
def graph_of_interfaces (db : database) (start : TypeDef) : Prop :=
  ∀ x, Relation.TransGen (implements db) start x →
    db.get_category x = category.interface_type

/-! ## Example metadata -/

/-- A printer for the examples: `I4` is written `int`, `String` is written `str`. -/
def example_printer : type_printer where
  write_ElementType := fun e => match e with
    | .I4 => "int"
    | .String => "str"
    | _ => "object"
  write_TypeDef := fun t => "T" ++ toString t
  write_TypeRef := fun r => r.TypeNamespace ++ "." ++ r.TypeName
  write_GenericTypeInst := fun g args => g ++ "<" ++ ", ".intercalate args ++ ">"

/-- A diamond: class `0` implements interfaces `1` and `2`; both implement interface `3`. -/
def diamond : database where
  get_category := fun t => if t = 0 then .class_type else .interface_type
  GenericParam := fun _ => []
  InterfaceImpl := fun t => match t with
    | 0 => [.TypeDef 1, .TypeDef 2]
    | 1 => [.TypeDef 3]
    | 2 => [.TypeDef 3]
    | _ => []
  Abstract := fun _ => false
  get_attribute := fun _ _ _ => false
  find := fun _ => none

/-- The example of the specification: class `0` (`X`) implements `IFoo<int>`;
the generic interface `1` (`IFoo<T>`) implements `Comparer<T>`, named through
a reference that resolves to the generic interface `2` (`Comparer<T>`). -/
def generic_example : database where
  get_category := fun t => if t = 0 then .class_type else .interface_type
  GenericParam := fun t => if t = 0 then [] else ["T"]
  InterfaceImpl := fun t => match t with
    | 0 => [.TypeSpec (.mk (.TypeDef 1) [.mk false (.ElementType .I4)])]
    | 1 => [.TypeSpec (.mk (.TypeRef ⟨"Example", "Comparer"⟩) [.mk false (.GenericTypeIndex 0)])]
    | _ => []
  Abstract := fun _ => false
  get_attribute := fun _ _ _ => false
  find := fun r => if r = ⟨"Example", "Comparer"⟩ then some 2 else none

/-! ## Signature dispatcher -/

/-- The member functions of the consumer `T` that `signature_handler_base<T>`
calls through `static_cast<T*>(this)`: the category handlers, the GUID
handler and the two leaf `handle` overloads. Each acts on the consumer's state
and may throw. -/
structure signature_handler (σ : Type) where
  handle_class : TypeDef → σ → Except Failure σ
  handle_delegate : TypeDef → σ → Except Failure σ
  handle_guid : TypeRef → σ → Except Failure σ
  handle_interface : TypeDef → σ → Except Failure σ
  handle_struct : TypeDef → σ → Except Failure σ
  handle_enum : TypeDef → σ → Except Failure σ
  handle_ElementType : ElementType → σ → Except Failure σ
  handle_GenericTypeIndex : Nat → σ → Except Failure σ

/-- The function `is_flags_enum`, helpers.h line 59. -/
def is_flags_enum (db : database) (type : TypeDef) : Bool :=
  decide (db.get_category type = category.enum_type) &&
    db.get_attribute type "System" "FlagsAttribute"

/-- The function `is_static(TypeDef)`, helpers.h line 69. -/
def is_static (db : database) (type : TypeDef) : Bool :=
  decide (db.get_category type = category.class_type) && db.Abstract type

namespace signature_handler_base

/-- The function `signature_handler_base::handle_enum`, helpers.h line 83: the member a
consumer inherits when it does not declare its own `handle_enum`. -/
def handle_enum {σ : Type} (db : database) (T : signature_handler σ) (type : TypeDef) (s : σ) :
    Except Failure σ :=
  if is_flags_enum db type then T.handle_ElementType .U4 s
  else T.handle_ElementType .I4 s

/-- The function `signature_handler_base::handle(TypeDef const&)`, helpers.h line 110. -/
def handle_TypeDef {σ : Type} (db : database) (T : signature_handler σ) (type : TypeDef) (s : σ) :
    Except Failure σ :=
  match db.get_category type with
  | .class_type => T.handle_class type s
  | .delegate_type => T.handle_delegate type s
  | .interface_type => T.handle_interface type s
  | .enum_type => T.handle_enum type s
  | .struct_type => T.handle_struct type s

/-- The function `signature_handler_base::handle(TypeRef const&)`, helpers.h line 95. -/
def handle_TypeRef {σ : Type} (db : database) (T : signature_handler σ) (type : TypeRef) (s : σ) :
    Except Failure σ :=
  if type.TypeName == "Guid" && type.TypeNamespace == "System" then
    T.handle_guid type s
  else
    match find_required db type with
    | .error e => .error e
    | .ok definition => handle_TypeDef db T definition s

mutual
/-- The function `signature_handler_base::handle(coded_index<TypeDefOrRef> const&)`, helpers.h line 132. -/
def handle_coded_index {σ : Type} (db : database) (T : signature_handler σ) :
    coded_index → σ → Except Failure σ
  | .TypeDef type, s => handle_TypeDef db T type s
  | .TypeRef type, s => handle_TypeRef db T type s
  | .TypeSpec sig, s => handle_GenericTypeInstSig db T sig s
/-- The function `signature_handler_base::handle(GenericTypeInstSig const&)`, helpers.h line 150. -/
def handle_GenericTypeInstSig {σ : Type} (db : database) (T : signature_handler σ) :
    GenericTypeInstSig → σ → Except Failure σ
  | .mk type args, s =>
    match handle_coded_index db T type s with
    | .error e => .error e
    | .ok s1 => handle_GenericArgs db T args s1
/-- The loop over `type.GenericArgs()` of `handle(GenericTypeInstSig const&)`. -/
def handle_GenericArgs {σ : Type} (db : database) (T : signature_handler σ) :
    List TypeSig → σ → Except Failure σ
  | [], s => .ok s
  | arg :: args, s =>
    match handle_TypeSig db T arg s with
    | .error e => .error e
    | .ok s1 => handle_GenericArgs db T args s1
/-- The function `signature_handler_base::handle(TypeSig const&)`, helpers.h line 164. -/
def handle_TypeSig {σ : Type} (db : database) (T : signature_handler σ) :
    TypeSig → σ → Except Failure σ
  | .mk _ (.ElementType type), s => T.handle_ElementType type s
  | .mk _ (.coded_index type), s => handle_coded_index db T type s
  | .mk _ (.GenericTypeIndex var), s => T.handle_GenericTypeIndex var s
  | .mk _ (.GenericTypeInstSig type), s => handle_GenericTypeInstSig db T type s
end

end signature_handler_base

/-- One call received by a consumer. -/
inductive invocation where
  | handle_class (type : TypeDef)
  | handle_delegate (type : TypeDef)
  | handle_guid (type : TypeRef)
  | handle_interface (type : TypeDef)
  | handle_struct (type : TypeDef)
  | handle_enum (type : TypeDef)
  | handle_ElementType (type : ElementType)
  | handle_GenericTypeIndex (var : Nat)
  deriving DecidableEq, Repr

/-- The consumer that declares every handler and records each call it
receives, in order. -/
def recorder : signature_handler (List invocation) where
  handle_class := fun type log => .ok (log ++ [.handle_class type])
  handle_delegate := fun type log => .ok (log ++ [.handle_delegate type])
  handle_guid := fun type log => .ok (log ++ [.handle_guid type])
  handle_interface := fun type log => .ok (log ++ [.handle_interface type])
  handle_struct := fun type log => .ok (log ++ [.handle_struct type])
  handle_enum := fun type log => .ok (log ++ [.handle_enum type])
  handle_ElementType := fun type log => .ok (log ++ [.handle_ElementType type])
  handle_GenericTypeIndex := fun var log => .ok (log ++ [.handle_GenericTypeIndex var])

/-- The category handler that matches a category, as a recorded call. -/
def category_invocation (c : category) (type : TypeDef) : invocation :=
  match c with
  | .class_type => .handle_class type
  | .delegate_type => .handle_delegate type
  | .interface_type => .handle_interface type
  | .enum_type => .handle_enum type
  | .struct_type => .handle_struct type

/-- The calls of a dispatch followed by the calls of the next ones, in order;
the first failure ends the sequence. -/
def concat_invocations :
    List (Except Failure (List invocation)) → Except Failure (List invocation)
  | [] => .ok []
  | .error e :: _ => .error e
  | .ok first :: rest =>
    match concat_invocations rest with
    | .error e => .error e
    | .ok others => .ok (first ++ others)

/-! ## Return value, direction and deallocation -/

/-- The return type of a method signature: `Type_` is `none` for `void`, the
case in which `RetTypeSig::operator bool` is false. -/
structure RetTypeSig where
  ByRef : Bool
  Type_ : Option TypeSig

/-- The function `get_param_category(RetTypeSig const&)`, helpers.h line 437.
`sig.Type()` reads the declared type, which a `void` return does not have:
the call has no result there. -/
def get_param_category_RetTypeSig (sig : RetTypeSig) : Option param_category :=
  match sig.Type_ with
  | none => none
  | some type => some (if type.is_szarray then .receive_array else .out)

/-- The function `is_in_param`, helpers.h line 449. -/
def is_in_param (mode : assert_mode) (param : param_t) : Except Failure Bool :=
  match get_param_category mode param with
  | .error e => .error e
  | .ok category =>
    .ok (category == param_category.in_
      || category == param_category.pass_array
      || category == param_category.fill_array)

/-- The function `is_out_param`, helpers.h line 459. -/
def is_out_param (mode : assert_mode) (param : param_t) : Except Failure Bool :=
  match get_param_category mode param with
  | .error e => .error e
  | .ok category =>
    .ok (category == param_category.out
      || category == param_category.receive_array
      || category == param_category.fill_array)

/-- The function `has_dealloc`, helpers.h line 549. -/
def has_dealloc (db : database) (type : TypeDef) : Bool :=
  let type_category := db.get_category type
  type_category == category.struct_type ||
    type_category == category.interface_type ||
    (type_category == category.class_type && !db.Abstract type)

/-! ## Method signature -/

/-- The signature blob of a method, `method.Signature()`: the return type and
the parameters. -/
structure MethodDefSig where
  ReturnType : RetTypeSig
  Params : List ParamSig

/-- The struct `method_signature`, helpers.h line 170. A `Param` iterator
`params.first + i` is kept as its position `i`, counted from the first
parameter record of the method; the constructor does not read the record it
designates. `m_return` is the record itself, which the constructor has read. -/
structure method_signature where
  m_method : MethodDefSig
  m_params : List (Nat × ParamSig)
  m_return : Option Param

/-- The loop of the constructor, helpers.h line 185: signature parameter `i`
is paired with the position `first + i`. -/
def method_signature.pair_params (first : Nat) : Nat → List ParamSig → List (Nat × ParamSig)
  | _, [] => []
  | i, param :: rest => (first + i, param) :: method_signature.pair_params first (i + 1) rest

/-- The constructor `method_signature(MethodDef const&)`, helpers.h line 174;
`signature` is `method.Signature()`. -/
def method_signature.construct (method : MethodDef) (signature : MethodDefSig) :
    method_signature :=
  match method.ParamList with
  | [] =>
    { m_method := signature
      m_params := method_signature.pair_params 0 0 signature.Params
      m_return := none }
  | first :: _ =>
    if signature.ReturnType.Type_.isSome && first.Sequence == 0 then
      { m_method := signature
        m_params := method_signature.pair_params 1 0 signature.Params
        m_return := some first }
    else
      { m_method := signature
        m_params := method_signature.pair_params 0 0 signature.Params
        m_return := none }

/-- The accessor `params()`, helpers.h line 191. -/
def method_signature.params (self : method_signature) : List (Nat × ParamSig) :=
  self.m_params

/-- The accessor `return_signature()`, helpers.h line 201. -/
def method_signature.return_signature (self : method_signature) : RetTypeSig :=
  self.m_method.ReturnType

/-- The accessor `return_param_name()`, helpers.h line 206. -/
def method_signature.return_param_name (self : method_signature) : String :=
  match self.m_return with
  | some param => param.Name
  | none => "_return_value"

/-- The accessor `has_params()`, helpers.h line 222. -/
def method_signature.has_params (self : method_signature) : Bool :=
  !self.m_params.isEmpty

/-- The parameter record of a method at a position, when the method has one there. -/
def param_record (method : MethodDef) (position : Nat) : Option Param :=
  method.ParamList.get? position

/-! ## Dotted names -/

/-- The position of the first `c` in a character sequence. -/
def find_first (c : Char) : List Char → Option Nat
  | [] => none
  | x :: rest => if x = c then some 0 else (find_first c rest).map (· + 1)

/-- The call `ns.find(c, pos)` of `std::string_view`: the position of the first
`c` at or after `pos`, `none` for `npos`. -/
def string_view_find (ns : List Char) (c : Char) (pos : Nat) : Option Nat :=
  (find_first c (ns.drop pos)).map (pos + ·)

/-- The loop of `get_dotted_name_segments`, helpers.h lines 20-32, on the
characters of `ns`; each turn of the loop uses one unit of `fuel`. -/
def get_dotted_name_segments_loop (ns : List Char) :
    Nat → Nat → List (List Char) → Option (List (List Char))
  | 0, _, _ => none
  | fuel + 1, pos, segments =>
    match string_view_find ns '.' pos with
    | none => some (segments ++ [ns.drop pos])
    | some new_pos =>
      get_dotted_name_segments_loop ns fuel (new_pos + 1)
        (segments ++ [(ns.drop pos).take (new_pos - pos)])

/-- The function `get_dotted_name_segments`, helpers.h line 15. -/
def get_dotted_name_segments (fuel : Nat) (ns : String) : Option (List String) :=
  (get_dotted_name_segments_loop ns.data fuel 0 []).map (fun segments => segments.map String.mk)

/-- The number of `.` characters of a string. -/
def count_dots (ns : String) : Nat :=
  ns.data.count '.'

/-- Segments written one after the other with a `.` between consecutive ones. -/
def join_dotted : List String → String
  | [] => ""
  | [segment] => segment
  | segment :: rest => segment ++ "." ++ join_dotted rest

/-- Character sequences written one after the other with a `.` between
consecutive ones. -/
def join_dotted_chars : List (List Char) → List Char
  | [] => []
  | [segment] => segment
  | segment :: rest => segment ++ '.' :: join_dotted_chars rest

/-! ## A cyclic example -/

/-- An interface that declares itself as implemented: definition `0` has the
single edge `0`. -/
def self_implementing : database where
  get_category := fun _ => .interface_type
  GenericParam := fun _ => []
  InterfaceImpl := fun t => if t = 0 then [.TypeDef 0] else []
  Abstract := fun _ => false
  get_attribute := fun _ _ _ => false
  find := fun _ => none

/-! ## Parameter categories -/

/-- C1. A parameter whose flags match a row of the classification table is
given exactly that row's category, whichever definition `XLANG_ASSERT` has. -/
theorem get_param_category_of_table_row (mode : assert_mode) (param : param_t)
    (c : param_category) (h : table_row param = some c) :
    get_param_category mode param = .ok c := by
  obtain ⟨⟨⟨i, o⟩, seq, name⟩, ⟨b, ⟨a, el⟩⟩⟩ := param
  cases mode <;> cases a <;> cases i <;> cases b <;> cases o <;>
    simp_all [table_row, classification_table, get_param_category, XLANG_ASSERT,
      TypeSig.is_szarray]

/-- Witness of C1: a by-ref out array is a receive_array. -/
theorem get_param_category_of_table_row_witness :
    get_param_category .compiled_out
      (⟨⟨false, true⟩, 1, "values"⟩, ⟨true, .mk true (.ElementType .I4)⟩)
      = .ok .receive_array :=
  get_param_category_of_table_row .compiled_out
    (⟨⟨false, true⟩, 1, "values"⟩, ⟨true, .mk true (.ElementType .I4)⟩) .receive_array rfl

/-- C3. `get_argument_convention` is no_args for a constructor without
parameter rows and for a special-name `get_` method, otherwise single_arg for a
special-name `put_`, `add_` or `remove_` method, otherwise variable_args; with
the three named instances. -/
theorem get_argument_convention_spec (method : MethodDef) :
    ((is_constructor method = true ∧ method.ParamList = []) ∨
        (method.SpecialName = true ∧ starts_with method.Name "get_" = true) →
      get_argument_convention method = .no_args) ∧
    (¬ ((is_constructor method = true ∧ method.ParamList = []) ∨
        (method.SpecialName = true ∧ starts_with method.Name "get_" = true)) →
      (method.SpecialName = true ∧ (starts_with method.Name "put_" = true ∨
        starts_with method.Name "add_" = true ∨ starts_with method.Name "remove_" = true)) →
      get_argument_convention method = .single_arg) ∧
    (¬ ((is_constructor method = true ∧ method.ParamList = []) ∨
        (method.SpecialName = true ∧ starts_with method.Name "get_" = true)) →
      ¬ (method.SpecialName = true ∧ (starts_with method.Name "put_" = true ∨
        starts_with method.Name "add_" = true ∨ starts_with method.Name "remove_" = true)) →
      get_argument_convention method = .variable_args) ∧
    (method.SpecialName = true → method.Name = "get_Value" → method.ParamList = [] →
      get_argument_convention method = .no_args) ∧
    (method.SpecialName = true → method.Name = "put_Value" → method.ParamList.length = 1 →
      get_argument_convention method = .single_arg) ∧
    (is_constructor method = true → method.ParamList ≠ [] →
      get_argument_convention method = .variable_args) := by
  obtain ⟨⟨rt, sp, st⟩, name, params⟩ := method
  have hget : starts_with "get_Value" "get_" = true := by decide
  have hput : starts_with "put_Value" "put_" = true := by decide
  have hput' : starts_with "put_Value" "get_" = false := by decide
  have hc1 : starts_with ".ctor" "get_" = false := by decide
  have hc2 : starts_with ".ctor" "put_" = false := by decide
  have hc3 : starts_with ".ctor" "add_" = false := by decide
  have hc4 : starts_with ".ctor" "remove_" = false := by decide
  have hne : ("put_Value" == ".ctor") = false := by decide
  refine ⟨?_, ?_, ?_, ?_, ?_, ?_⟩
  · rintro (⟨h1, h2⟩ | ⟨h1, h2⟩)
    · simp_all [get_argument_convention]
    · simp_all [get_argument_convention, is_get_method, MethodDef.SpecialName]
  · intro h1 h2
    unfold get_argument_convention
    rw [if_neg, if_neg, if_pos]
    · simp only [is_put_method, is_add_method, is_remove_method, MethodDef.SpecialName] at h2 ⊢
      obtain ⟨h2, h3 | h3 | h3⟩ := h2 <;> simp [h2, h3]
    · intro h; apply h1; right
      simpa [is_get_method] using h
    · intro h; apply h1; left
      simpa using h
  · intro h1 h2
    unfold get_argument_convention
    rw [if_neg, if_neg, if_neg]
    · intro h; apply h2
      simp only [is_put_method, is_add_method, is_remove_method, MethodDef.SpecialName,
        Bool.or_eq_true, Bool.and_eq_true] at h ⊢
      tauto
    · intro h; apply h1; right
      simpa [is_get_method] using h
    · intro h; apply h1; left
      simpa using h
  · intro h1 h2 h3
    simp only [MethodDef.SpecialName] at h1 h2 h3
    subst h2
    simp_all [get_argument_convention, is_get_method, MethodDef.SpecialName]
  · intro h1 h2 h3
    simp only [MethodDef.SpecialName] at h1 h2 h3
    subst h2
    simp_all [get_argument_convention, is_get_method, is_put_method, is_constructor,
      MethodDef.SpecialName]
  · intro h1 h2
    simp only [is_constructor, Bool.and_eq_true, beq_iff_eq] at h1
    obtain ⟨h1, h3⟩ := h1
    subst h3
    cases params with
    | nil => exact absurd rfl h2
    | cons p ps =>
      simp_all [get_argument_convention, is_get_method, is_put_method, is_add_method,
        is_remove_method, is_constructor, MethodDef.SpecialName]

/-- Witness of C3: special-name `get_Value` without parameters is no_args. -/
theorem get_argument_convention_spec_witness :
    get_argument_convention ⟨⟨false, true, false⟩, "get_Value", []⟩ = .no_args :=
  (get_argument_convention_spec ⟨⟨false, true, false⟩, "get_Value", []⟩).2.2.2.1 rfl rfl rfl

/-! ## Recording an interface -/

theorem push_interface_info_of_mem {L : List interface_info} {r : interface_info}
    (h : r.type ∈ L.map interface_info.type) : push_interface_info L r = L := by
  unfold push_interface_info
  cases hf : L.find? (fun i => i.type == r.type) with
  | some x => rfl
  | none =>
    rw [List.find?_eq_none] at hf
    obtain ⟨i, hi, hir⟩ := List.mem_map.1 h
    exact absurd (by simpa using hir) (hf i hi)

theorem push_interface_info_of_not_mem {L : List interface_info} {r : interface_info}
    (h : r.type ∉ L.map interface_info.type) : push_interface_info L r = L ++ [r] := by
  unfold push_interface_info
  cases hf : L.find? (fun i => i.type == r.type) with
  | none => rfl
  | some x =>
    have hx := List.find?_some hf
    have hm := List.mem_of_find?_eq_some hf
    exact absurd (List.mem_map.2 ⟨x, hm, by simpa using hx⟩) h

theorem remove_listed_congr (l : List interface_info) :
    ∀ s1 s2 : List TypeDef, (∀ t, t ∈ s1 ↔ t ∈ s2) → remove_listed s1 l = remove_listed s2 l := by
  induction l with
  | nil => intro s1 s2 _; rfl
  | cons i rest ih =>
    intro s1 s2 h
    by_cases hi : i.type ∈ s1
    · have hi2 : i.type ∈ s2 := (h _).1 hi
      simp only [remove_listed, hi, hi2, if_true]
      exact ih s1 s2 h
    · have hi2 : i.type ∉ s2 := fun h2 => hi ((h _).2 h2)
      simp only [remove_listed, hi, hi2, if_false]
      rw [ih (i.type :: s1) (i.type :: s2)]
      intro t
      simp only [List.mem_cons, h t]

theorem mem_remove_listed (l : List interface_info) :
    ∀ (s : List TypeDef) (t : TypeDef),
      t ∈ (remove_listed s l).map interface_info.type ↔ t ∈ l.map interface_info.type ∧ t ∉ s := by
  induction l with
  | nil => intro s t; simp [remove_listed]
  | cons i rest ih =>
    intro s t
    by_cases hi : i.type ∈ s
    · simp only [remove_listed, hi, if_true, ih s t, List.map_cons, List.mem_cons]
      constructor
      · rintro ⟨h1, h2⟩; exact ⟨Or.inr h1, h2⟩
      · rintro ⟨h1 | h1, h2⟩
        · subst h1; exact absurd hi h2
        · exact ⟨h1, h2⟩
    · simp only [remove_listed, hi, if_false, List.map_cons, List.mem_cons, ih (i.type :: s) t]
      constructor
      · rintro (h1 | ⟨h1, h2⟩)
        · subst h1; exact ⟨Or.inl rfl, hi⟩
        · exact ⟨Or.inr h1, fun h3 => h2 (Or.inr h3)⟩
      · rintro ⟨h1 | h1, h2⟩
        · exact Or.inl h1
        · by_cases ht : t = i.type
          · exact Or.inl ht
          · right
            refine ⟨h1, ?_⟩
            rintro (h3 | h3)
            · exact ht h3
            · exact h2 h3

theorem nodup_remove_listed (l : List interface_info) :
    ∀ s : List TypeDef, ((remove_listed s l).map interface_info.type).Nodup := by
  induction l with
  | nil => intro s; simp [remove_listed]
  | cons i rest ih =>
    intro s
    by_cases hi : i.type ∈ s
    · simp only [remove_listed, hi, if_true]
      exact ih s
    · simp only [remove_listed, hi, if_false, List.map_cons, List.nodup_cons]
      refine ⟨?_, ih _⟩
      intro h
      exact ((mem_remove_listed rest (i.type :: s) i.type).1 h).2 (List.mem_cons_self _ _)

/-- Recording a sequence entry by entry appends the sequence without the
entries already listed. -/
theorem foldl_push_interface_info (l : List interface_info) :
    ∀ acc : List interface_info,
      l.foldl push_interface_info acc
        = acc ++ remove_listed (acc.map interface_info.type) l := by
  induction l with
  | nil => intro acc; simp [remove_listed]
  | cons i rest ih =>
    intro acc
    rw [List.foldl_cons]
    by_cases hi : i.type ∈ acc.map interface_info.type
    · rw [push_interface_info_of_mem hi, ih]
      simp only [remove_listed, hi, if_true]
    · rw [push_interface_info_of_not_mem hi, ih]
      simp only [remove_listed, hi, if_false, List.append_assoc, List.singleton_append]
      congr 2
      apply remove_listed_congr
      intro t
      simp only [List.map_append, List.map_cons, List.map_nil, List.mem_append, List.mem_cons,
        List.mem_singleton, List.not_mem_nil, or_false]
      exact or_comm

/-- C9. `push_interface_info` leaves the list unchanged when an entry has the
same definition as the new requirement (whatever the type arguments are),
appends the requirement at the end otherwise, and in both cases the old list is
an initial segment of the new one. -/
theorem push_interface_info_spec (L : List interface_info) (r : interface_info) :
    ((∃ i ∈ L, i.type = r.type) → push_interface_info L r = L) ∧
    ((¬ ∃ i ∈ L, i.type = r.type) → push_interface_info L r = L ++ [r]) ∧
    L <+: push_interface_info L r := by
  have key : (∃ i ∈ L, i.type = r.type) ↔ r.type ∈ L.map interface_info.type := by
    simp only [List.mem_map]
  refine ⟨fun h => push_interface_info_of_mem (key.1 h),
    fun h => push_interface_info_of_not_mem (fun h2 => h (key.2 h2)), ?_⟩
  by_cases h : r.type ∈ L.map interface_info.type
  · rw [push_interface_info_of_mem h]
  · rw [push_interface_info_of_not_mem h]
    exact List.prefix_append _ _

/-- Witness of C9: a second requirement for definition `7` with other type
arguments is dropped. -/
theorem push_interface_info_spec_witness :
    push_interface_info [⟨7, ["int"]⟩, ⟨8, []⟩] ⟨7, ["str"]⟩ = [⟨7, ["int"]⟩, ⟨8, []⟩] :=
  (push_interface_info_spec [⟨7, ["int"]⟩, ⟨8, []⟩] ⟨7, ["str"]⟩).1
    ⟨⟨7, ["int"]⟩, by simp, rfl⟩

/-! ## The collector records the discovery sequence -/

/-- Recording a discovery sequence onto the requirements collected so far. -/
theorem for_each_InterfaceImpl_eq
    (body : List interface_info → coded_index → Except Failure (List interface_info))
    (visit : coded_index → Except Failure (List interface_info))
    (h : ∀ acc ii, body acc ii
      = (visit ii).map (fun l => l.foldl push_interface_info acc)) :
    ∀ (edges : List coded_index) (acc : List interface_info),
      for_each_InterfaceImpl body acc edges
        = (concat_visits visit edges).map (fun l => l.foldl push_interface_info acc) := by
  intro edges
  induction edges with
  | nil => intro acc; rfl
  | cons ii rest ih =>
    intro acc
    simp only [for_each_InterfaceImpl, concat_visits, h acc ii]
    cases hv : visit ii with
    | error e => rfl
    | ok first =>
      simp only [Except.map]
      rw [ih]
      cases hr : concat_visits visit rest with
      | error e => rfl
      | ok others => simp [Except.map, List.foldl_append]

theorem collect_eq_discovery (db : database) :
    ∀ fuel : Nat,
      (∀ w acc type, collect_required_interfaces_TypeDef db fuel w acc type
        = (discovery_sequence_TypeDef db fuel w type).map
            (fun l => l.foldl push_interface_info acc)) ∧
      (∀ w acc sig, collect_required_interfaces_GenericTypeInstSig db fuel w acc sig
        = (discovery_sequence_GenericTypeInstSig db fuel w sig).map
            (fun l => l.foldl push_interface_info acc)) ∧
      (∀ w acc index, collect_required_interfaces db fuel w acc index
        = (discovery_sequence db fuel w index).map
            (fun l => l.foldl push_interface_info acc)) := by
  intro fuel
  induction fuel with
  | zero =>
    refine ⟨?_, ?_, ?_⟩ <;> intros <;>
      simp [collect_required_interfaces_TypeDef, collect_required_interfaces_GenericTypeInstSig,
        collect_required_interfaces, discovery_sequence_TypeDef,
        discovery_sequence_GenericTypeInstSig, discovery_sequence, Except.map]
  | succ fuel ih =>
    obtain ⟨ihT, ihG, ihI⟩ := ih
    refine ⟨?_, ?_, ?_⟩
    · intro w acc type
      simp only [collect_required_interfaces_TypeDef, discovery_sequence_TypeDef]
      rw [for_each_InterfaceImpl_eq _ _ (fun a ii => ihI _ a ii)]
      cases hc : concat_visits (fun ii => discovery_sequence db fuel
          (w.push_generic_params (db.GenericParam type)) ii) (db.InterfaceImpl type) with
      | error e => rfl
      | ok others =>
        by_cases hcat : db.get_category type = category.interface_type <;>
          simp [Except.map, hcat, List.foldl_append]
    · intro w acc sig
      simp only [collect_required_interfaces_GenericTypeInstSig,
        discovery_sequence_GenericTypeInstSig]
      cases hg : generic_type_definition db sig with
      | error e => rfl
      | ok type =>
        simp only []
        rw [for_each_InterfaceImpl_eq _ _ (fun a ii => ihI _ a ii)]
        cases hc : concat_visits (fun ii => discovery_sequence db fuel
            (w.push_generic_params_sig sig) ii) (db.InterfaceImpl type) with
        | error e => rfl
        | ok others => simp [Except.map]
    · intro w acc index
      simp only [collect_required_interfaces, discovery_sequence]
      cases index with
      | TypeDef type => exact ihT w acc type
      | TypeRef type =>
        simp only []
        cases hf : find_required db type with
        | error e => rfl
        | ok type1 => exact ihT w acc type1
      | TypeSpec sig => exact ihG w acc sig

/-- The list `get_required_interfaces` returns is the discovery sequence with
the later occurrences removed, and the two fail together. -/
theorem get_required_interfaces_eq (db : database) (printer : type_printer) (fuel : Nat)
    (type : TypeDef) :
    get_required_interfaces db printer fuel type
      = (required_interfaces_sequence db printer fuel type).map remove_later_occurrences := by
  unfold get_required_interfaces required_interfaces_sequence
  rw [(collect_eq_discovery db fuel).1]
  congr 1
  funext l
  rw [foldl_push_interface_info]
  rfl

/-! ## What the discovery sequence contains -/

theorem concat_visits_cons_ok {visit : coded_index → Except Failure (List interface_info)}
    {ii : coded_index} {rest : List coded_index} {l : List interface_info}
    (h : concat_visits visit (ii :: rest) = .ok l) :
    ∃ first others, visit ii = .ok first ∧ concat_visits visit rest = .ok others ∧
      l = first ++ others := by
  simp only [concat_visits] at h
  cases hv : visit ii with
  | error e => rw [hv] at h; cases h
  | ok first =>
    rw [hv] at h
    cases hr : concat_visits visit rest with
    | error e => rw [hr] at h; cases h
    | ok others =>
      rw [hr] at h
      cases h
      exact ⟨first, others, rfl, rfl, rfl⟩

theorem transGen_implements_iff (db : database) (x t : TypeDef) :
    Relation.TransGen (implements db) x t
      ↔ ∃ b, implements db x b ∧ (t = b ∨ Relation.TransGen (implements db) b t) := by
  rw [Relation.TransGen.head'_iff]
  constructor
  · rintro ⟨b, hb, h⟩
    exact ⟨b, hb, Relation.reflTransGen_iff_eq_or_transGen.1 h⟩
  · rintro ⟨b, hb, h⟩
    exact ⟨b, hb, Relation.reflTransGen_iff_eq_or_transGen.2 h⟩

theorem concat_visits_sound (db : database)
    (visit : coded_index → Except Failure (List interface_info))
    (h : ∀ ii l, visit ii = .ok l → ∃ b, edge_target db ii = .ok b ∧
      ∀ t ∈ l.map interface_info.type, t = b ∨ Relation.TransGen (implements db) b t) :
    ∀ (edges : List coded_index) (l : List interface_info),
      concat_visits visit edges = .ok l →
      ∀ t ∈ l.map interface_info.type, ∃ ii ∈ edges, ∃ b, edge_target db ii = .ok b ∧
        (t = b ∨ Relation.TransGen (implements db) b t) := by
  intro edges
  induction edges with
  | nil =>
    intro l hl t ht
    simp only [concat_visits] at hl
    cases hl
    simp at ht
  | cons ii rest ih =>
    intro l hl t ht
    obtain ⟨first, others, h1, h2, rfl⟩ := concat_visits_cons_ok hl
    rw [List.map_append, List.mem_append] at ht
    rcases ht with ht | ht
    · obtain ⟨b, hb, hall⟩ := h ii first h1
      exact ⟨ii, List.mem_cons_self _ _, b, hb, hall t ht⟩
    · obtain ⟨jj, hj, b, hb, htb⟩ := ih others h2 t ht
      exact ⟨jj, List.mem_cons_of_mem _ hj, b, hb, htb⟩

/-- Every entry of a discovery sequence is the node itself or a definition it reaches. -/
theorem discovery_sound (db : database) :
    ∀ fuel : Nat,
      (∀ w x l, discovery_sequence_TypeDef db fuel w x = .ok l →
        ∀ t ∈ l.map interface_info.type,
          (t = x ∧ db.get_category x = category.interface_type) ∨
            Relation.TransGen (implements db) x t) ∧
      (∀ w sig l, discovery_sequence_GenericTypeInstSig db fuel w sig = .ok l →
        ∃ b, generic_type_definition db sig = .ok b ∧
          ∀ t ∈ l.map interface_info.type, t = b ∨ Relation.TransGen (implements db) b t) ∧
      (∀ w ii l, discovery_sequence db fuel w ii = .ok l →
        ∃ b, edge_target db ii = .ok b ∧
          ∀ t ∈ l.map interface_info.type, t = b ∨ Relation.TransGen (implements db) b t) := by
  intro fuel
  induction fuel with
  | zero =>
    refine ⟨?_, ?_, ?_⟩ <;> intro w x l h <;>
      simp [discovery_sequence_TypeDef, discovery_sequence_GenericTypeInstSig,
        discovery_sequence] at h
  | succ fuel ih =>
    obtain ⟨ihT, ihG, ihI⟩ := ih
    have children : ∀ (w : writer) (x : TypeDef) (others : List interface_info),
        concat_visits (fun ii => discovery_sequence db fuel w ii) (db.InterfaceImpl x)
          = .ok others →
        ∀ t ∈ others.map interface_info.type, Relation.TransGen (implements db) x t := by
      intro w x others hc t ht
      obtain ⟨ii, hii, b, hb, htb⟩ :=
        concat_visits_sound db _ (fun ii l hl => ihI w ii l hl) _ _ hc t ht
      exact (transGen_implements_iff db x t).2 ⟨b, ⟨ii, hii, hb⟩, htb⟩
    refine ⟨?_, ?_, ?_⟩
    · intro w x l h t ht
      simp only [discovery_sequence_TypeDef] at h
      cases hc : concat_visits (fun ii => discovery_sequence db fuel
          (w.push_generic_params (db.GenericParam x)) ii) (db.InterfaceImpl x) with
      | error e => rw [hc] at h; cases h
      | ok others =>
        rw [hc] at h
        cases h
        rw [List.map_append, List.mem_append] at ht
        rcases ht with ht | ht
        · left
          by_cases hcat : db.get_category x = category.interface_type
          · simp [hcat] at ht
            exact ⟨ht, hcat⟩
          · simp [hcat] at ht
        · exact Or.inr (children _ x others hc t ht)
    · intro w sig l h
      simp only [discovery_sequence_GenericTypeInstSig] at h
      cases hg : generic_type_definition db sig with
      | error e => rw [hg] at h; cases h
      | ok b =>
        rw [hg] at h
        simp only [] at h
        cases hc : concat_visits (fun ii => discovery_sequence db fuel
            (w.push_generic_params_sig sig) ii) (db.InterfaceImpl b) with
        | error e => rw [hc] at h; cases h
        | ok others =>
          rw [hc] at h
          cases h
          refine ⟨b, rfl, ?_⟩
          intro t ht
          rw [List.map_cons, List.mem_cons] at ht
          rcases ht with ht | ht
          · exact Or.inl ht
          · exact Or.inr (children _ b others hc t ht)
    · intro w ii l h
      simp only [discovery_sequence] at h
      cases ii with
      | TypeDef x =>
        refine ⟨x, rfl, ?_⟩
        intro t ht
        rcases (ihT w x l h) t ht with ⟨h1, _⟩ | h1
        · exact Or.inl h1
        · exact Or.inr h1
      | TypeRef r =>
        simp only [] at h
        cases hf : find_required db r with
        | error e => rw [hf] at h; cases h
        | ok x =>
          rw [hf] at h
          refine ⟨x, hf, ?_⟩
          intro t ht
          rcases (ihT w x l h) t ht with ⟨h1, _⟩ | h1
          · exact Or.inl h1
          · exact Or.inr h1
      | TypeSpec sig => exact ihG w sig l h

theorem concat_visits_complete (db : database)
    (visit : coded_index → Except Failure (List interface_info))
    (h : ∀ ii l, visit ii = .ok l → ∃ b, edge_target db ii = .ok b ∧
      (db.get_category b = category.interface_type → b ∈ l.map interface_info.type) ∧
      ∀ t, Relation.TransGen (implements db) b t →
        db.get_category t = category.interface_type → t ∈ l.map interface_info.type) :
    ∀ (edges : List coded_index) (l : List interface_info),
      concat_visits visit edges = .ok l →
      ∀ ii ∈ edges, ∃ b, edge_target db ii = .ok b ∧
        (db.get_category b = category.interface_type → b ∈ l.map interface_info.type) ∧
        ∀ t, Relation.TransGen (implements db) b t →
          db.get_category t = category.interface_type → t ∈ l.map interface_info.type := by
  intro edges
  induction edges with
  | nil => intro l _ ii hii; cases hii
  | cons jj rest ih =>
    intro l hl ii hii
    obtain ⟨first, others, h1, h2, rfl⟩ := concat_visits_cons_ok hl
    rcases List.mem_cons.1 hii with rfl | hii
    · obtain ⟨b, hb, hself, hall⟩ := h ii first h1
      refine ⟨b, hb, ?_, ?_⟩
      · intro hc
        rw [List.map_append, List.mem_append]
        exact Or.inl (hself hc)
      · intro t ht hc
        rw [List.map_append, List.mem_append]
        exact Or.inl (hall t ht hc)
    · obtain ⟨b, hb, hself, hall⟩ := ih others h2 ii hii
      refine ⟨b, hb, ?_, ?_⟩
      · intro hc
        rw [List.map_append, List.mem_append]
        exact Or.inr (hself hc)
      · intro t ht hc
        rw [List.map_append, List.mem_append]
        exact Or.inr (hall t ht hc)

/-- A discovery sequence lists every interface the node reaches, and the node
itself when it is an interface. -/
theorem discovery_complete (db : database) :
    ∀ fuel : Nat,
      (∀ w x l, discovery_sequence_TypeDef db fuel w x = .ok l →
        (db.get_category x = category.interface_type → x ∈ l.map interface_info.type) ∧
        ∀ t, Relation.TransGen (implements db) x t →
          db.get_category t = category.interface_type → t ∈ l.map interface_info.type) ∧
      (∀ w sig l, discovery_sequence_GenericTypeInstSig db fuel w sig = .ok l →
        ∃ b, generic_type_definition db sig = .ok b ∧ b ∈ l.map interface_info.type ∧
          ∀ t, Relation.TransGen (implements db) b t →
            db.get_category t = category.interface_type → t ∈ l.map interface_info.type) ∧
      (∀ w ii l, discovery_sequence db fuel w ii = .ok l →
        ∃ b, edge_target db ii = .ok b ∧
          (db.get_category b = category.interface_type → b ∈ l.map interface_info.type) ∧
          ∀ t, Relation.TransGen (implements db) b t →
            db.get_category t = category.interface_type → t ∈ l.map interface_info.type) := by
  intro fuel
  induction fuel with
  | zero =>
    refine ⟨?_, ?_, ?_⟩ <;> intro w x l h <;>
      simp [discovery_sequence_TypeDef, discovery_sequence_GenericTypeInstSig,
        discovery_sequence] at h
  | succ fuel ih =>
    obtain ⟨ihT, ihG, ihI⟩ := ih
    have children : ∀ (w : writer) (x : TypeDef) (others : List interface_info),
        concat_visits (fun ii => discovery_sequence db fuel w ii) (db.InterfaceImpl x)
          = .ok others →
        ∀ t, Relation.TransGen (implements db) x t →
          db.get_category t = category.interface_type →
          t ∈ others.map interface_info.type := by
      intro w x others hc t ht hcat
      obtain ⟨b, ⟨ii, hii, hb⟩, htb⟩ := (transGen_implements_iff db x t).1 ht
      obtain ⟨b', hb', hself, hall⟩ :=
        concat_visits_complete db _ (fun ii l hl => ihI w ii l hl) _ _ hc ii hii
      rw [hb] at hb'
      cases hb'
      rcases htb with rfl | htb
      · exact hself hcat
      · exact hall t htb hcat
    refine ⟨?_, ?_, ?_⟩
    · intro w x l h
      simp only [discovery_sequence_TypeDef] at h
      cases hc : concat_visits (fun ii => discovery_sequence db fuel
          (w.push_generic_params (db.GenericParam x)) ii) (db.InterfaceImpl x) with
      | error e => rw [hc] at h; cases h
      | ok others =>
        rw [hc] at h
        cases h
        refine ⟨?_, ?_⟩
        · intro hcat
          simp [hcat]
        · intro t ht hcat
          rw [List.map_append, List.mem_append]
          exact Or.inr (children _ x others hc t ht hcat)
    · intro w sig l h
      simp only [discovery_sequence_GenericTypeInstSig] at h
      cases hg : generic_type_definition db sig with
      | error e => rw [hg] at h; cases h
      | ok b =>
        rw [hg] at h
        simp only [] at h
        cases hc : concat_visits (fun ii => discovery_sequence db fuel
            (w.push_generic_params_sig sig) ii) (db.InterfaceImpl b) with
        | error e => rw [hc] at h; cases h
        | ok others =>
          rw [hc] at h
          cases h
          refine ⟨b, rfl, by simp, ?_⟩
          intro t ht hcat
          rw [List.map_cons, List.mem_cons]
          exact Or.inr (children _ b others hc t ht hcat)
    · intro w ii l h
      simp only [discovery_sequence] at h
      cases ii with
      | TypeDef x => exact ⟨x, rfl, ihT w x l h⟩
      | TypeRef r =>
        simp only [] at h
        cases hf : find_required db r with
        | error e => rw [hf] at h; cases h
        | ok x =>
          rw [hf] at h
          exact ⟨x, hf, ihT w x l h⟩
      | TypeSpec sig =>
        obtain ⟨b, hb, hself, hall⟩ := ihG w sig l h
        exact ⟨b, hb, fun _ => hself, hall⟩

/-! ## The walk returns on a finite acyclic graph -/

/-- Induction along the implements edges of a finite acyclic graph. -/
theorem reachable_induction (db : database) (start : TypeDef)
    (hfin : graph_finite db start) (hacyc : graph_acyclic db start) (P : TypeDef → Prop)
    (step : ∀ x, reachable db start x → (∀ b, implements db x b → P b) → P x) :
    ∀ x, reachable db start x → P x := by
  haveI : Finite {x // reachable db start x} := Set.finite_coe_iff.2 hfin
  let R : {x // reachable db start x} → {x // reachable db start x} → Prop :=
    fun b a => implements db a.1 b.1
  have hmap : ∀ a b : {x // reachable db start x}, Relation.TransGen R a b →
      Relation.TransGen (implements db) b.1 a.1 := by
    intro a b h
    induction h with
    | single h => exact Relation.TransGen.single h
    | tail _ hbc ih => exact Relation.TransGen.head hbc ih
  haveI : IsTrans {x // reachable db start x} (Relation.TransGen R) :=
    ⟨fun _ _ _ => Relation.TransGen.trans⟩
  haveI : IsIrrefl {x // reachable db start x} (Relation.TransGen R) :=
    ⟨fun a h => hacyc a.1 a.2 (hmap a a h)⟩
  have wf : WellFounded (Relation.TransGen R) := Finite.wellFounded_of_trans_of_irrefl _
  have wfR : WellFounded R := Subrelation.wf (fun h => Relation.TransGen.single h) wf
  intro x hx
  exact wfR.induction (C := fun a => P a.1) ⟨x, hx⟩
    (fun a ih => step a.1 a.2 (fun b hb => ih ⟨b, a.2.tail hb⟩ hb))

theorem discovery_edge_ok (db : database) (ii : coded_index) (b : TypeDef) (N : Nat)
    (hb : edge_target db ii = .ok b)
    (hN : ∀ fuel, N ≤ fuel → ∀ w, ∃ l,
      concat_visits (fun jj => discovery_sequence db fuel w jj) (db.InterfaceImpl b) = .ok l) :
    ∀ fuel, N + 2 ≤ fuel → ∀ w, ∃ l, discovery_sequence db fuel w ii = .ok l := by
  intro fuel hfuel w
  obtain ⟨f, rfl⟩ : ∃ f, fuel = f + 2 := ⟨fuel - 2, by omega⟩
  have hf : N ≤ f := by omega
  have node : ∀ w, ∃ l, discovery_sequence_TypeDef db (f + 1) w b = .ok l := by
    intro w
    obtain ⟨others, ho⟩ := hN f hf (w.push_generic_params (db.GenericParam b))
    simp only [discovery_sequence_TypeDef, ho]
    exact ⟨_, rfl⟩
  cases ii with
  | TypeDef x =>
    simp only [edge_target] at hb
    cases hb
    simp only [discovery_sequence]
    exact node w
  | TypeRef r =>
    simp only [edge_target] at hb
    simp only [discovery_sequence, hb]
    exact node w
  | TypeSpec sig =>
    simp only [edge_target] at hb
    obtain ⟨others, ho⟩ := hN f hf (w.push_generic_params_sig sig)
    simp only [discovery_sequence, discovery_sequence_GenericTypeInstSig, hb, ho]
    exact ⟨_, rfl⟩

theorem concat_visits_terminate (db : database) :
    ∀ edges : List coded_index,
      (∀ ii ∈ edges, ∃ b N, edge_target db ii = .ok b ∧ ∀ fuel, N ≤ fuel → ∀ w, ∃ l,
        concat_visits (fun jj => discovery_sequence db fuel w jj) (db.InterfaceImpl b)
          = .ok l) →
      ∃ N, ∀ fuel, N ≤ fuel → ∀ w, ∃ l,
        concat_visits (fun ii => discovery_sequence db fuel w ii) edges = .ok l := by
  intro edges
  induction edges with
  | nil => intro _; exact ⟨0, fun _ _ _ => ⟨[], rfl⟩⟩
  | cons ii rest ih =>
    intro h
    obtain ⟨b, N1, hb, hN1⟩ := h ii (List.mem_cons_self _ _)
    obtain ⟨N2, hN2⟩ := ih (fun jj hj => h jj (List.mem_cons_of_mem _ hj))
    refine ⟨max (N1 + 2) N2, ?_⟩
    intro fuel hfuel w
    obtain ⟨first, h1⟩ := discovery_edge_ok db ii b N1 hb hN1 fuel
      (le_trans (le_max_left _ _) hfuel) w
    obtain ⟨others, h2⟩ := hN2 fuel (le_trans (le_max_right _ _) hfuel) w
    simp only [concat_visits, h1, h2]
    exact ⟨_, rfl⟩

/-- On a finite acyclic graph with resolvable edges the depth-first walk of
the edges of every node returns, given enough fuel. -/
theorem discovery_children_terminate (db : database) (start : TypeDef)
    (hres : edges_resolvable db start) (hfin : graph_finite db start)
    (hacyc : graph_acyclic db start) :
    ∀ x, reachable db start x → ∃ N, ∀ fuel, N ≤ fuel → ∀ w, ∃ l,
      concat_visits (fun ii => discovery_sequence db fuel w ii) (db.InterfaceImpl x)
        = .ok l := by
  apply reachable_induction db start hfin hacyc
  intro x hx ih
  apply concat_visits_terminate
  intro ii hii
  obtain ⟨b, hb⟩ := hres x hx ii hii
  obtain ⟨N, hN⟩ := ih b ⟨ii, hii, hb⟩
  exact ⟨b, N, hb, hN⟩

theorem required_interfaces_sequence_terminates (db : database) (printer : type_printer)
    (start : TypeDef) (hres : edges_resolvable db start) (hfin : graph_finite db start)
    (hacyc : graph_acyclic db start) :
    ∃ N, ∀ fuel, N ≤ fuel → ∃ l,
      required_interfaces_sequence db printer fuel start = .ok l := by
  obtain ⟨N, hN⟩ := discovery_children_terminate db start hres hfin hacyc start
    Relation.ReflTransGen.refl
  refine ⟨N + 1, ?_⟩
  intro fuel hfuel
  obtain ⟨f, rfl⟩ : ∃ f, fuel = f + 1 := ⟨fuel - 1, by omega⟩
  obtain ⟨others, ho⟩ := hN f (by omega)
    ((writer.push_generic_params { printer := printer, generic_param_stack := [] }
      (db.GenericParam start)).push_generic_params (db.GenericParam start))
  simp only [required_interfaces_sequence, discovery_sequence_TypeDef, ho]
  exact ⟨_, rfl⟩

/-! ## The diamond example -/

theorem diamond_implements {a b : TypeDef} (h : implements diamond a b) : a < b ∧ b ≤ 3 := by
  obtain ⟨ii, hii, hb⟩ := h
  match a, hii with
  | 0, hii =>
    simp only [diamond, List.mem_cons, List.mem_singleton, List.not_mem_nil, or_false] at hii
    rcases hii with rfl | rfl <;> simp only [edge_target] at hb <;> cases hb <;>
      exact ⟨by decide, by decide⟩
  | 1, hii =>
    simp only [diamond, List.mem_cons, List.mem_singleton, List.not_mem_nil, or_false] at hii
    subst hii
    simp only [edge_target] at hb
    cases hb
    exact ⟨by decide, by decide⟩
  | 2, hii =>
    simp only [diamond, List.mem_cons, List.mem_singleton, List.not_mem_nil, or_false] at hii
    subst hii
    simp only [edge_target] at hb
    cases hb
    exact ⟨by decide, by decide⟩
  | n + 3, hii => simp [diamond] at hii

theorem diamond_transGen {a b : TypeDef} (h : Relation.TransGen (implements diamond) a b) :
    a < b ∧ b ≤ 3 := by
  induction h with
  | single h => exact diamond_implements h
  | tail _ hbc ih =>
    have := diamond_implements hbc
    exact ⟨lt_trans ih.1 this.1, this.2⟩

theorem diamond_resolvable (start : TypeDef) : edges_resolvable diamond start := by
  intro x _ ii hii
  match x, hii with
  | 0, hii =>
    simp only [diamond, List.mem_cons, List.mem_singleton, List.not_mem_nil, or_false] at hii
    rcases hii with rfl | rfl <;> exact ⟨_, rfl⟩
  | 1, hii =>
    simp only [diamond, List.mem_cons, List.mem_singleton, List.not_mem_nil, or_false] at hii
    subst hii
    exact ⟨_, rfl⟩
  | 2, hii =>
    simp only [diamond, List.mem_cons, List.mem_singleton, List.not_mem_nil, or_false] at hii
    subst hii
    exact ⟨_, rfl⟩
  | n + 3, hii => simp [diamond] at hii

theorem diamond_finite : graph_finite diamond 0 := by
  apply Set.Finite.subset (Set.finite_le_nat 3)
  intro x hx
  rcases Relation.reflTransGen_iff_eq_or_transGen.1 hx with rfl | h
  · simp
  · exact (diamond_transGen h).2

theorem diamond_acyclic (start : TypeDef) : graph_acyclic diamond start := by
  intro x _ h
  exact lt_irrefl _ (diamond_transGen h).1

theorem diamond_of_interfaces : graph_of_interfaces diamond 0 := by
  intro x h
  have := (diamond_transGen h).1
  have hx : x ≠ 0 := Nat.ne_of_gt this
  simp [diamond, hx]

/-! ## The closure -/

/-- C4. On a finite acyclic implements graph of interfaces whose edges all
resolve, `get_required_interfaces` returns (given enough fuel) a list whose
definitions are exactly the starting type, if and only if it is an interface,
together with every definition reached through one or more implements edges. -/
theorem get_required_interfaces_closure (db : database) (printer : type_printer)
    (start : TypeDef) (hres : edges_resolvable db start) (hfin : graph_finite db start)
    (hacyc : graph_acyclic db start) (hintf : graph_of_interfaces db start) :
    ∃ N, ∀ fuel, N ≤ fuel → ∃ L, get_required_interfaces db printer fuel start = .ok L ∧
      ∀ t, (∃ i ∈ L, i.type = t) ↔
        (t = start ∧ db.get_category start = category.interface_type) ∨
          Relation.TransGen (implements db) start t := by
  obtain ⟨N, hN⟩ := required_interfaces_sequence_terminates db printer start hres hfin hacyc
  refine ⟨N, ?_⟩
  intro fuel hfuel
  obtain ⟨l, hl⟩ := hN fuel hfuel
  refine ⟨remove_later_occurrences l, ?_, ?_⟩
  · rw [get_required_interfaces_eq, hl]; rfl
  · intro t
    have hmem : (∃ i ∈ remove_later_occurrences l, i.type = t)
        ↔ t ∈ l.map interface_info.type := by
      have := mem_remove_listed l [] t
      simp only [List.not_mem_nil, not_false_eq_true, and_true, List.mem_map] at this
      simpa [remove_later_occurrences, List.mem_map] using this
    rw [hmem]
    constructor
    · intro ht
      exact (discovery_sound db fuel).1 _ start l hl t ht
    · rintro (⟨rfl, hcat⟩ | ht)
      · exact ((discovery_complete db fuel).1 _ t l hl).1 hcat
      · exact ((discovery_complete db fuel).1 _ start l hl).2 t ht (hintf t ht)

/-- Witness of C4: the diamond, started at the class `0`. -/
theorem get_required_interfaces_closure_witness :
    ∃ N, ∀ fuel, N ≤ fuel → ∃ L,
      get_required_interfaces diamond example_printer fuel 0 = .ok L ∧
      ∀ t, (∃ i ∈ L, i.type = t) ↔
        (t = 0 ∧ diamond.get_category 0 = category.interface_type) ∨
          Relation.TransGen (implements diamond) 0 t :=
  get_required_interfaces_closure diamond example_printer 0 (diamond_resolvable 0)
    diamond_finite (diamond_acyclic 0) diamond_of_interfaces

/-- C5. Whenever `get_required_interfaces` returns, no two entries of the list
have the same definition, and an interface the starting type reaches (the `D`
of a diamond, reached along two paths) has exactly one entry. -/
theorem get_required_interfaces_nodup (db : database) (printer : type_printer) (fuel : Nat)
    (start : TypeDef) (L : List interface_info)
    (h : get_required_interfaces db printer fuel start = .ok L) :
    (L.map interface_info.type).Nodup ∧
    ∀ D, Relation.TransGen (implements db) start D →
      db.get_category D = category.interface_type →
      (L.map interface_info.type).count D = 1 := by
  rw [get_required_interfaces_eq] at h
  cases hl : required_interfaces_sequence db printer fuel start with
  | error e => rw [hl] at h; cases h
  | ok l =>
    rw [hl] at h
    simp only [Except.map] at h
    cases h
    have hnd : ((remove_later_occurrences l).map interface_info.type).Nodup :=
      nodup_remove_listed l []
    refine ⟨hnd, ?_⟩
    intro D hD hcat
    apply List.count_eq_one_of_mem hnd
    have := ((discovery_complete db fuel).1 _ start l hl).2 D hD hcat
    exact (mem_remove_listed l [] D).2 ⟨this, List.not_mem_nil _⟩

/-- Witness of C5: the diamond returns the list `1, 3, 2`, with one entry for `3`. -/
theorem get_required_interfaces_nodup_witness :
    get_required_interfaces diamond example_printer 5 0
        = .ok [⟨1, []⟩, ⟨3, []⟩, ⟨2, []⟩] ∧
    (([⟨1, []⟩, ⟨3, []⟩, ⟨2, []⟩] : List interface_info).map interface_info.type).Nodup ∧
    ∀ D, Relation.TransGen (implements diamond) 0 D →
      diamond.get_category D = category.interface_type →
      (([⟨1, []⟩, ⟨3, []⟩, ⟨2, []⟩] : List interface_info).map interface_info.type).count D
        = 1 :=
  ⟨rfl, get_required_interfaces_nodup diamond example_printer 5 0
    [⟨1, []⟩, ⟨3, []⟩, ⟨2, []⟩] rfl⟩

/-- C6. On a finite acyclic implements graph whose edges all resolve, the list
`get_required_interfaces` returns (given enough fuel) is the depth-first
pre-order discovery sequence with every later occurrence of an already listed
definition removed, in that order. -/
theorem get_required_interfaces_first_discovery (db : database) (printer : type_printer)
    (start : TypeDef) (hres : edges_resolvable db start) (hfin : graph_finite db start)
    (hacyc : graph_acyclic db start) :
    ∃ N, ∀ fuel, N ≤ fuel → ∃ L sequence,
      get_required_interfaces db printer fuel start = .ok L ∧
      required_interfaces_sequence db printer fuel start = .ok sequence ∧
      L = remove_later_occurrences sequence := by
  obtain ⟨N, hN⟩ := required_interfaces_sequence_terminates db printer start hres hfin hacyc
  refine ⟨N, ?_⟩
  intro fuel hfuel
  obtain ⟨l, hl⟩ := hN fuel hfuel
  refine ⟨remove_later_occurrences l, l, ?_, hl, rfl⟩
  rw [get_required_interfaces_eq, hl]
  rfl

/-- Witness of C6: the diamond; the sequence `1, 3, 2, 3` is returned as `1, 3, 2`. -/
theorem get_required_interfaces_first_discovery_witness :
    (∃ N, ∀ fuel, N ≤ fuel → ∃ L sequence,
      get_required_interfaces diamond example_printer fuel 0 = .ok L ∧
      required_interfaces_sequence diamond example_printer fuel 0 = .ok sequence ∧
      L = remove_later_occurrences sequence) ∧
    required_interfaces_sequence diamond example_printer 5 0
      = .ok [⟨1, []⟩, ⟨3, []⟩, ⟨2, []⟩, ⟨3, []⟩] ∧
    get_required_interfaces diamond example_printer 5 0
      = .ok [⟨1, []⟩, ⟨3, []⟩, ⟨2, []⟩] :=
  ⟨get_required_interfaces_first_discovery diamond example_printer 0 (diamond_resolvable 0)
    diamond_finite (diamond_acyclic 0), rfl, rfl⟩

/-- C8. For a starting type whose category is interface, the first entry of
any list `get_required_interfaces` returns is that interface with its declared
generic parameter names as type arguments; and on a finite acyclic graph whose
edges resolve it does return such a list. -/
theorem get_required_interfaces_head (db : database) (printer : type_printer)
    (start : TypeDef) (hcat : db.get_category start = category.interface_type) :
    (∀ fuel L, get_required_interfaces db printer fuel start = .ok L →
      L.head? = some { type := start, type_arguments := db.GenericParam start }) ∧
    (edges_resolvable db start → graph_finite db start → graph_acyclic db start →
      ∃ N, ∀ fuel, N ≤ fuel → ∃ L, get_required_interfaces db printer fuel start = .ok L ∧
        L.head? = some { type := start, type_arguments := db.GenericParam start }) := by
  have first : ∀ fuel L, get_required_interfaces db printer fuel start = .ok L →
      L.head? = some { type := start, type_arguments := db.GenericParam start } := by
    intro fuel L h
    rw [get_required_interfaces_eq] at h
    cases fuel with
    | zero => simp [required_interfaces_sequence, discovery_sequence_TypeDef, Except.map] at h
    | succ fuel =>
      simp only [required_interfaces_sequence, discovery_sequence_TypeDef] at h
      cases hc : concat_visits (fun ii => discovery_sequence db fuel
          ((writer.push_generic_params { printer := printer, generic_param_stack := [] }
            (db.GenericParam start)).push_generic_params (db.GenericParam start)) ii)
          (db.InterfaceImpl start) with
      | error e => rw [hc] at h; cases h
      | ok others =>
        rw [hc] at h
        simp only [Except.map, hcat, if_true] at h
        cases h
        simp [remove_later_occurrences, remove_listed]
  refine ⟨first, ?_⟩
  intro hres hfin hacyc
  obtain ⟨N, hN⟩ := required_interfaces_sequence_terminates db printer start hres hfin hacyc
  refine ⟨N, ?_⟩
  intro fuel hfuel
  obtain ⟨l, hl⟩ := hN fuel hfuel
  have hget : get_required_interfaces db printer fuel start
      = .ok (remove_later_occurrences l) := by
    rw [get_required_interfaces_eq, hl]; rfl
  exact ⟨_, hget, first fuel _ hget⟩

/-! ## The generic example -/

theorem generic_example_implements {a b : TypeDef} (h : implements generic_example a b) :
    a < b ∧ b ≤ 2 := by
  obtain ⟨ii, hii, hb⟩ := h
  match a, hii with
  | 0, hii =>
    simp only [generic_example, List.mem_singleton] at hii
    subst hii
    simp only [edge_target, generic_type_definition, GenericTypeInstSig.GenericType] at hb
    cases hb
    exact ⟨by decide, by decide⟩
  | 1, hii =>
    simp only [generic_example, List.mem_singleton] at hii
    subst hii
    have : edge_target generic_example
        (.TypeSpec (.mk (.TypeRef ⟨"Example", "Comparer"⟩) [.mk false (.GenericTypeIndex 0)]))
        = .ok 2 := rfl
    rw [this] at hb
    cases hb
    exact ⟨by decide, by decide⟩
  | n + 2, hii => simp [generic_example] at hii

theorem generic_example_transGen {a b : TypeDef}
    (h : Relation.TransGen (implements generic_example) a b) : a < b ∧ b ≤ 2 := by
  induction h with
  | single h => exact generic_example_implements h
  | tail _ hbc ih =>
    have := generic_example_implements hbc
    exact ⟨lt_trans ih.1 this.1, this.2⟩

theorem generic_example_resolvable (start : TypeDef) : edges_resolvable generic_example start := by
  intro x _ ii hii
  match x, hii with
  | 0, hii =>
    simp only [generic_example, List.mem_singleton] at hii
    subst hii
    exact ⟨1, rfl⟩
  | 1, hii =>
    simp only [generic_example, List.mem_singleton] at hii
    subst hii
    exact ⟨2, rfl⟩
  | n + 2, hii => simp [generic_example] at hii

theorem generic_example_finite (start : TypeDef) : graph_finite generic_example start := by
  apply Set.Finite.subset ((Set.finite_le_nat 2).insert start)
  intro x hx
  rcases Relation.reflTransGen_iff_eq_or_transGen.1 hx with rfl | h
  · exact Set.mem_insert _ _
  · exact Set.mem_insert_of_mem _ (generic_example_transGen h).2

theorem generic_example_acyclic (start : TypeDef) : graph_acyclic generic_example start := by
  intro x _ h
  exact lt_irrefl _ (generic_example_transGen h).1

/-- Witness of C8: the generic interface `1` of the example heads its own
list, with its parameter name as type argument. -/
theorem get_required_interfaces_head_witness :
    (∀ fuel L, get_required_interfaces generic_example example_printer fuel 1 = .ok L →
      L.head? = some { type := 1, type_arguments := ["T"] }) ∧
    (∃ N, ∀ fuel, N ≤ fuel → ∃ L,
      get_required_interfaces generic_example example_printer fuel 1 = .ok L ∧
        L.head? = some { type := 1, type_arguments := ["T"] }) ∧
    get_required_interfaces generic_example example_printer 3 1
      = .ok [⟨1, ["T"]⟩, ⟨2, ["T"]⟩] :=
  ⟨(get_required_interfaces_head generic_example example_printer 1 rfl).1,
   (get_required_interfaces_head generic_example example_printer 1 rfl).2
     (generic_example_resolvable 1) (generic_example_finite 1) (generic_example_acyclic 1),
   rfl⟩

/-! ## Generic substitution -/

/-- C10. `handle(TypeDef)` makes exactly one call on the consumer, the category
handler that matches the definition's category: the recording consumer ends
with exactly that one call added, and for any consumer the dispatch is the
matching handler's own effect. -/
theorem handle_TypeDef_invokes_matching_handler (db : database) (type : TypeDef) :
    (∀ log : List invocation,
      signature_handler_base.handle_TypeDef db recorder type log
        = .ok (log ++ [category_invocation (db.get_category type) type])) ∧
    (∀ (σ : Type) (T : signature_handler σ) (s : σ),
      (db.get_category type = category.class_type →
        signature_handler_base.handle_TypeDef db T type s = T.handle_class type s) ∧
      (db.get_category type = category.delegate_type →
        signature_handler_base.handle_TypeDef db T type s = T.handle_delegate type s) ∧
      (db.get_category type = category.interface_type →
        signature_handler_base.handle_TypeDef db T type s = T.handle_interface type s) ∧
      (db.get_category type = category.enum_type →
        signature_handler_base.handle_TypeDef db T type s = T.handle_enum type s) ∧
      (db.get_category type = category.struct_type →
        signature_handler_base.handle_TypeDef db T type s = T.handle_struct type s)) := by
  refine ⟨?_, ?_⟩
  · intro log
    unfold signature_handler_base.handle_TypeDef
    cases db.get_category type <;> rfl
  · intro σ T s
    unfold signature_handler_base.handle_TypeDef
    refine ⟨?_, ?_, ?_, ?_, ?_⟩ <;> intro h <;> rw [h]

/-- Witness of C10: an enum definition of a one-row database reaches `handle_enum` only. -/
theorem handle_TypeDef_invokes_matching_handler_witness :
    signature_handler_base.handle_TypeDef
        { diamond with get_category := fun _ => category.enum_type } recorder 0 []
      = .ok [invocation.handle_enum 0] :=
  (handle_TypeDef_invokes_matching_handler
    { diamond with get_category := fun _ => category.enum_type } 0).1 []

/-! ## Dispatch of an enum and of a reference -/

/-- C11. For an enum definition the inherited `handle_enum` makes exactly one
call on the consumer, the element-kind handler, with `U4` when the definition
carries `System.FlagsAttribute` and with `I4` when it does not. -/
theorem handle_enum_element_kind (db : database) (type : TypeDef)
    (hcat : db.get_category type = category.enum_type) :
    (∀ log : List invocation,
      signature_handler_base.handle_enum db recorder type log
        = .ok (log ++ [invocation.handle_ElementType
            (if db.get_attribute type "System" "FlagsAttribute" then ElementType.U4
             else ElementType.I4)])) ∧
    (∀ (σ : Type) (T : signature_handler σ) (s : σ),
      signature_handler_base.handle_enum db T type s
        = T.handle_ElementType
            (if db.get_attribute type "System" "FlagsAttribute" then ElementType.U4
             else ElementType.I4) s) := by
  refine ⟨?_, ?_⟩
  · intro log
    unfold signature_handler_base.handle_enum is_flags_enum
    cases hattr : db.get_attribute type "System" "FlagsAttribute" <;>
      simp [hcat, recorder]
  · intro σ T s
    unfold signature_handler_base.handle_enum is_flags_enum
    cases hattr : db.get_attribute type "System" "FlagsAttribute" <;>
      simp [hcat]

/-- Witness of C11: an enum carrying the flags marker is dispatched as `U4`. -/
theorem handle_enum_element_kind_witness :
    signature_handler_base.handle_enum
        { diamond with
          get_category := fun _ => category.enum_type
          get_attribute := fun _ _ _ => true } recorder 0 []
      = .ok [invocation.handle_ElementType ElementType.U4] :=
  (handle_enum_element_kind
    { diamond with
      get_category := fun _ => category.enum_type
      get_attribute := fun _ _ _ => true } 0 rfl).1 []

/-- C12. For a reference named `Guid` in namespace `System`, `handle(TypeRef)`
makes the single call `handle_guid`, whatever the database holds; for any
other reference it is `handle(TypeDef)` on the definition the lookup finds, and
when the lookup finds nothing it fails with the resolution error, whatever the
consumer's handlers are. -/
theorem handle_TypeRef_dispatch (db : database) (type : TypeRef) :
    (type.TypeName = "Guid" ∧ type.TypeNamespace = "System" →
      (∀ log : List invocation,
        signature_handler_base.handle_TypeRef db recorder type log
          = .ok (log ++ [invocation.handle_guid type])) ∧
      (∀ (other : database) (σ : Type) (T : signature_handler σ) (s : σ),
        signature_handler_base.handle_TypeRef other T type s = T.handle_guid type s)) ∧
    (¬ (type.TypeName = "Guid" ∧ type.TypeNamespace = "System") →
      (∀ definition, db.find type = some definition →
        ∀ (σ : Type) (T : signature_handler σ) (s : σ),
          signature_handler_base.handle_TypeRef db T type s
            = signature_handler_base.handle_TypeDef db T definition s) ∧
      (db.find type = none →
        ∀ (σ : Type) (T : signature_handler σ) (s : σ),
          signature_handler_base.handle_TypeRef db T type s
            = .error (Failure.not_found type))) := by
  refine ⟨?_, ?_⟩
  · rintro ⟨h1, h2⟩
    refine ⟨?_, ?_⟩
    · intro log
      simp [signature_handler_base.handle_TypeRef, h1, h2, recorder]
    · intro other σ T s
      simp [signature_handler_base.handle_TypeRef, h1, h2]
  · intro h
    have hc : (type.TypeName == "Guid" && type.TypeNamespace == "System") = false := by
      rw [Bool.eq_false_iff]
      intro hb
      apply h
      simpa using hb
    refine ⟨?_, ?_⟩
    · intro definition hfind σ T s
      simp [signature_handler_base.handle_TypeRef, hc, find_required, hfind]
    · intro hfind σ T s
      simp [signature_handler_base.handle_TypeRef, hc, find_required, hfind]

/-- Witness of C12: `System.Guid` reaches `handle_guid` only, in a database
whose lookup finds nothing. -/
theorem handle_TypeRef_dispatch_witness :
    signature_handler_base.handle_TypeRef diamond recorder ⟨"System", "Guid"⟩ []
      = .ok [invocation.handle_guid ⟨"System", "Guid"⟩] :=
  ((handle_TypeRef_dispatch diamond ⟨"System", "Guid"⟩).1 ⟨rfl, rfl⟩).1 []

/-! ## Direction of a parameter and the return value -/

/-- C14. For a parameter that `get_param_category` classifies, `is_in_param`
holds exactly for in, pass_array and fill_array, `is_out_param` exactly for
out, receive_array and fill_array; one of the two holds, and both hold exactly
for fill_array. -/
theorem is_in_param_is_out_param_spec (mode : assert_mode) (param : param_t)
    (c : param_category) (h : get_param_category mode param = .ok c) :
    is_in_param mode param = .ok (decide (c = param_category.in_ ∨
      c = param_category.pass_array ∨ c = param_category.fill_array)) ∧
    is_out_param mode param = .ok (decide (c = param_category.out ∨
      c = param_category.receive_array ∨ c = param_category.fill_array)) ∧
    (is_in_param mode param = .ok true ∨ is_out_param mode param = .ok true) ∧
    ((is_in_param mode param = .ok true ∧ is_out_param mode param = .ok true)
      ↔ c = param_category.fill_array) := by
  unfold is_in_param is_out_param
  rw [h]
  cases c <;> simp

/-- Witness of C14: an array that is neither in nor by-ref is a fill_array,
both in and out. -/
theorem is_in_param_is_out_param_spec_witness :
    is_in_param .checked
        (⟨⟨false, true⟩, 1, "values"⟩, ⟨false, .mk true (.ElementType .I4)⟩) = .ok true ∧
    is_out_param .checked
        (⟨⟨false, true⟩, 1, "values"⟩, ⟨false, .mk true (.ElementType .I4)⟩) = .ok true :=
  ((is_in_param_is_out_param_spec .checked
    (⟨⟨false, true⟩, 1, "values"⟩, ⟨false, .mk true (.ElementType .I4)⟩)
    .fill_array rfl).2.2.2).2 rfl

/-- C15. For a non-void return signature the category depends only on whether
the declared type is an array: receive_array for an array, out otherwise, and
never in, pass_array or fill_array. -/
theorem get_param_category_RetTypeSig_spec (sig : RetTypeSig) (type : TypeSig)
    (h : sig.Type_ = some type) :
    get_param_category_RetTypeSig sig
      = some (if type.is_szarray then param_category.receive_array else param_category.out) ∧
    get_param_category_RetTypeSig sig ≠ some param_category.in_ ∧
    get_param_category_RetTypeSig sig ≠ some param_category.pass_array ∧
    get_param_category_RetTypeSig sig ≠ some param_category.fill_array ∧
    (∀ (other : RetTypeSig) (other_type : TypeSig), other.Type_ = some other_type →
      other_type.is_szarray = type.is_szarray →
      get_param_category_RetTypeSig other = get_param_category_RetTypeSig sig) := by
  have key : ∀ (r : RetTypeSig) (t : TypeSig), r.Type_ = some t →
      get_param_category_RetTypeSig r
        = some (if t.is_szarray then param_category.receive_array else param_category.out) := by
    intro r t hr
    simp [get_param_category_RetTypeSig, hr]
  rw [key sig type h]
  refine ⟨rfl, ?_, ?_, ?_, ?_⟩
  · cases type.is_szarray <;> simp
  · cases type.is_szarray <;> simp
  · cases type.is_szarray <;> simp
  · intro other other_type ho hsame
    rw [key other other_type ho, hsame]

/-- Witness of C15: a by-ref array return is a receive_array. -/
theorem get_param_category_RetTypeSig_spec_witness :
    get_param_category_RetTypeSig ⟨true, some (.mk true (.ElementType .String))⟩
      = some param_category.receive_array :=
  (get_param_category_RetTypeSig_spec ⟨true, some (.mk true (.ElementType .String))⟩
    (.mk true (.ElementType .String)) rfl).1

/-! ## Deallocation -/

/-- C17. `has_dealloc` holds exactly for a struct, an interface and a class
whose abstract flag is clear; it fails for every delegate, every enum and
every static class. -/
theorem has_dealloc_spec (db : database) (type : TypeDef) :
    (has_dealloc db type = true ↔
      db.get_category type = category.struct_type ∨
      db.get_category type = category.interface_type ∨
      (db.get_category type = category.class_type ∧ db.Abstract type = false)) ∧
    (db.get_category type = category.delegate_type → has_dealloc db type = false) ∧
    (db.get_category type = category.enum_type → has_dealloc db type = false) ∧
    (is_static db type = true → has_dealloc db type = false) := by
  unfold has_dealloc is_static
  cases hc : db.get_category type <;> cases ha : db.Abstract type <;> simp

/-- Witness of C17: the class of the diamond is not abstract and has the hook. -/
theorem has_dealloc_spec_witness : has_dealloc diamond 0 = true :=
  (has_dealloc_spec diamond 0).1.2 (Or.inr (Or.inr ⟨rfl, rfl⟩))

/-! ## Method signature -/

theorem pair_params_get (first : Nat) (params : List ParamSig) :
    ∀ (start i : Nat),
      (method_signature.pair_params first start params).get? i
        = (params.get? i).map (fun param => (first + (start + i), param)) := by
  induction params with
  | nil => intro start i; simp [method_signature.pair_params]
  | cons param rest ih =>
    intro start i
    cases i with
    | zero => simp [method_signature.pair_params]
    | succ n =>
      simp only [method_signature.pair_params, List.get?_cons_succ]
      rw [ih (start + 1) n]
      have : first + (start + 1 + n) = first + (start + (n + 1)) := by omega
      rw [this]

/-- C16. When the signature has a non-void return type and the first parameter
record of the method has sequence number 0, `params()` pairs signature
parameter `i` with the record at position `i + 1`, so the leading record is in
no pair, and `return_param_name()` is the leading record's name. In every
other case `params()` pairs signature parameter `i` with the record at
position `i` and `return_param_name()` is `_return_value`. Either way there is
one pair per signature parameter. -/
theorem method_signature_spec (method : MethodDef) (signature : MethodDefSig) :
    (∀ first rest, signature.ReturnType.Type_.isSome = true →
      method.ParamList = first :: rest → first.Sequence = 0 →
      (∀ i, (method_signature.construct method signature).params.get? i
        = (signature.Params.get? i).map (fun param => (i + 1, param))) ∧
      (∀ pair ∈ (method_signature.construct method signature).params, pair.1 ≠ 0) ∧
      (∀ i, param_record method (i + 1) = rest.get? i) ∧
      (method_signature.construct method signature).return_param_name = first.Name) ∧
    ((¬ ∃ first rest, signature.ReturnType.Type_.isSome = true ∧
        method.ParamList = first :: rest ∧ first.Sequence = 0) →
      (∀ i, (method_signature.construct method signature).params.get? i
        = (signature.Params.get? i).map (fun param => (i, param))) ∧
      (∀ i, param_record method i = method.ParamList.get? i) ∧
      (method_signature.construct method signature).return_param_name = "_return_value") ∧
    (method_signature.construct method signature).params.length = signature.Params.length ∧
    (method_signature.construct method signature).return_signature = signature.ReturnType := by
  have hlen : ∀ (first start : Nat) (params : List ParamSig),
      (method_signature.pair_params first start params).length = params.length := by
    intro first start params
    induction params generalizing start with
    | nil => rfl
    | cons p ps ih => simp [method_signature.pair_params, ih]
  refine ⟨?_, ?_, ?_, ?_⟩
  · intro first rest hret hlist hseq
    have hcons : method_signature.construct method signature
        = { m_method := signature
            m_params := method_signature.pair_params 1 0 signature.Params
            m_return := some first } := by
      simp [method_signature.construct, hlist, hret, hseq]
    rw [hcons]
    refine ⟨?_, ?_, ?_, rfl⟩
    · intro i
      simp only [method_signature.params]
      rw [pair_params_get]
      congr 1
      funext param
      simp [Nat.add_comm]
    · intro pair hpair
      simp only [method_signature.params] at hpair
      obtain ⟨i, hi⟩ := List.get?_of_mem hpair
      rw [pair_params_get] at hi
      cases hp : signature.Params.get? i with
      | none => rw [hp] at hi; cases hi
      | some param =>
        rw [hp] at hi
        simp only [Option.map_some', Option.some.injEq] at hi
        rw [← hi]
        simp
    · intro i
      simp [param_record, hlist]
  · intro hno
    have hcons : method_signature.construct method signature
        = { m_method := signature
            m_params := method_signature.pair_params 0 0 signature.Params
            m_return := none } := by
      unfold method_signature.construct
      cases hlist : method.ParamList with
      | nil => rfl
      | cons first rest =>
        have : (signature.ReturnType.Type_.isSome && first.Sequence == 0) = false := by
          rw [Bool.eq_false_iff]
          intro hb
          apply hno
          simp only [Bool.and_eq_true, beq_iff_eq] at hb
          exact ⟨first, rest, hb.1, hlist, hb.2⟩
        simp [this]
    rw [hcons]
    refine ⟨?_, fun i => rfl, rfl⟩
    intro i
    simp only [method_signature.params]
    rw [pair_params_get]
    congr 1
    funext param
    simp
  · unfold method_signature.construct method_signature.params
    cases method.ParamList with
    | nil => exact hlen _ _ _
    | cons first rest =>
      simp only []
      split <;> exact hlen _ _ _
  · unfold method_signature.construct method_signature.return_signature
    cases method.ParamList with
    | nil => rfl
    | cons first rest =>
      simp only []
      split <;> rfl

/-- Witness of C16: `String get_Name()` with the return record `value` at
sequence 0 and no signature parameter. -/
theorem method_signature_spec_witness :
    (method_signature.construct
        ⟨⟨false, true, false⟩, "get_Name", [⟨⟨false, true⟩, 0, "value"⟩]⟩
        ⟨⟨false, some (.mk false (.ElementType .String))⟩, []⟩).return_param_name = "value" :=
  ((method_signature_spec
      ⟨⟨false, true, false⟩, "get_Name", [⟨⟨false, true⟩, 0, "value"⟩]⟩
      ⟨⟨false, some (.mk false (.ElementType .String))⟩, []⟩).1
    ⟨⟨false, true⟩, 0, "value"⟩ [] rfl rfl rfl).2.2.2

/-! ## Dispatch of an instantiation -/

theorem recorder_handle_TypeDef (db : database) (type : TypeDef) (log : List invocation) :
    signature_handler_base.handle_TypeDef db recorder type log
      = (signature_handler_base.handle_TypeDef db recorder type []).map (fun t => log ++ t) := by
  unfold signature_handler_base.handle_TypeDef
  cases db.get_category type <;> simp [recorder, Except.map]

theorem recorder_handle_TypeRef (db : database) (type : TypeRef) (log : List invocation) :
    signature_handler_base.handle_TypeRef db recorder type log
      = (signature_handler_base.handle_TypeRef db recorder type []).map (fun t => log ++ t) := by
  unfold signature_handler_base.handle_TypeRef
  split
  · simp [recorder, Except.map]
  · cases find_required db type with
    | error e => rfl
    | ok definition => exact recorder_handle_TypeDef db definition log

mutual
theorem recorder_handle_coded_index (db : database) :
    ∀ (index : coded_index) (log : List invocation),
      signature_handler_base.handle_coded_index db recorder index log
        = (signature_handler_base.handle_coded_index db recorder index []).map
            (fun t => log ++ t)
  | .TypeDef type, log => by
    simp only [signature_handler_base.handle_coded_index]
    exact recorder_handle_TypeDef db type log
  | .TypeRef type, log => by
    simp only [signature_handler_base.handle_coded_index]
    exact recorder_handle_TypeRef db type log
  | .TypeSpec sig, log => by
    simp only [signature_handler_base.handle_coded_index]
    exact recorder_handle_GenericTypeInstSig db sig log
theorem recorder_handle_GenericTypeInstSig (db : database) :
    ∀ (sig : GenericTypeInstSig) (log : List invocation),
      signature_handler_base.handle_GenericTypeInstSig db recorder sig log
        = (signature_handler_base.handle_GenericTypeInstSig db recorder sig []).map
            (fun t => log ++ t)
  | .mk type args, log => by
    simp only [signature_handler_base.handle_GenericTypeInstSig]
    rw [recorder_handle_coded_index db type log]
    cases signature_handler_base.handle_coded_index db recorder type [] with
    | error e => rfl
    | ok first =>
      simp only [Except.map]
      rw [recorder_handle_GenericArgs db args (log ++ first),
        recorder_handle_GenericArgs db args first]
      cases signature_handler_base.handle_GenericArgs db recorder args [] with
      | error e => rfl
      | ok others => simp [Except.map]
theorem recorder_handle_GenericArgs (db : database) :
    ∀ (args : List TypeSig) (log : List invocation),
      signature_handler_base.handle_GenericArgs db recorder args log
        = (signature_handler_base.handle_GenericArgs db recorder args []).map
            (fun t => log ++ t)
  | [], log => by simp [signature_handler_base.handle_GenericArgs, Except.map]
  | arg :: args, log => by
    simp only [signature_handler_base.handle_GenericArgs]
    rw [recorder_handle_TypeSig db arg log]
    cases signature_handler_base.handle_TypeSig db recorder arg [] with
    | error e => rfl
    | ok first =>
      simp only [Except.map]
      rw [recorder_handle_GenericArgs db args (log ++ first),
        recorder_handle_GenericArgs db args first]
      cases signature_handler_base.handle_GenericArgs db recorder args [] with
      | error e => rfl
      | ok others => simp [Except.map]
theorem recorder_handle_TypeSig (db : database) :
    ∀ (signature : TypeSig) (log : List invocation),
      signature_handler_base.handle_TypeSig db recorder signature log
        = (signature_handler_base.handle_TypeSig db recorder signature []).map
            (fun t => log ++ t)
  | .mk _ (.ElementType type), log => by
    simp [signature_handler_base.handle_TypeSig, recorder, Except.map]
  | .mk _ (.coded_index type), log => by
    simp only [signature_handler_base.handle_TypeSig]
    exact recorder_handle_coded_index db type log
  | .mk _ (.GenericTypeIndex var), log => by
    simp [signature_handler_base.handle_TypeSig, recorder, Except.map]
  | .mk _ (.GenericTypeInstSig type), log => by
    simp only [signature_handler_base.handle_TypeSig]
    exact recorder_handle_GenericTypeInstSig db type log
end

theorem recorder_handle_GenericArgs_eq (db : database) (args : List TypeSig) :
    signature_handler_base.handle_GenericArgs db recorder args []
      = concat_invocations
          (args.map (fun arg => signature_handler_base.handle_TypeSig db recorder arg [])) := by
  induction args with
  | nil => rfl
  | cons arg rest ih =>
    simp only [signature_handler_base.handle_GenericArgs, List.map_cons]
    cases hf : signature_handler_base.handle_TypeSig db recorder arg [] with
    | error e => rfl
    | ok first =>
      simp only [concat_invocations]
      rw [recorder_handle_GenericArgs db rest first, ih]
      cases concat_invocations
          (rest.map (fun arg => signature_handler_base.handle_TypeSig db recorder arg [])) with
      | error e => rfl
      | ok others => rfl

/-- C13. The calls `handle(GenericTypeInstSig)` makes for `G<a1..an>` are the
calls of dispatching the generic type `G`, followed by the calls of
dispatching `a1`, then `a2`, ..., then `an`; a nested instantiation among the
arguments is dispatched by the same function. They are added to the calls
recorded before, and for any consumer the dispatch is the dispatch of `G`
followed by the loop over the arguments. -/
theorem handle_GenericTypeInstSig_order (db : database) (type : coded_index)
    (args : List TypeSig) :
    signature_handler_base.handle_GenericTypeInstSig db recorder (.mk type args) []
      = concat_invocations
          (signature_handler_base.handle_coded_index db recorder type [] ::
            args.map (fun arg => signature_handler_base.handle_TypeSig db recorder arg [])) ∧
    (∀ log : List invocation,
      signature_handler_base.handle_GenericTypeInstSig db recorder (.mk type args) log
        = (signature_handler_base.handle_GenericTypeInstSig db recorder (.mk type args) []).map
            (fun t => log ++ t)) ∧
    (∀ (array : Bool) (nested : GenericTypeInstSig),
      signature_handler_base.handle_TypeSig db recorder (.mk array (.GenericTypeInstSig nested)) []
        = signature_handler_base.handle_GenericTypeInstSig db recorder nested []) ∧
    (∀ (σ : Type) (T : signature_handler σ) (s : σ),
      signature_handler_base.handle_GenericTypeInstSig db T (.mk type args) s
        = match signature_handler_base.handle_coded_index db T type s with
          | .error e => .error e
          | .ok s1 => signature_handler_base.handle_GenericArgs db T args s1) := by
  refine ⟨?_, fun log => recorder_handle_GenericTypeInstSig db _ log, ?_, ?_⟩
  · simp only [signature_handler_base.handle_GenericTypeInstSig]
    cases hf : signature_handler_base.handle_coded_index db recorder type [] with
    | error e => rfl
    | ok first =>
      simp only [concat_invocations]
      rw [recorder_handle_GenericArgs db args first, recorder_handle_GenericArgs_eq]
      cases concat_invocations
          (args.map (fun arg => signature_handler_base.handle_TypeSig db recorder arg [])) with
      | error e => rfl
      | ok others => rfl
  · intro array nested
    simp only [signature_handler_base.handle_TypeSig]
  · intro σ T s
    simp only [signature_handler_base.handle_GenericTypeInstSig]

/-- Witness of C13: `1<String, 2<I4>>` over the generic example is dispatched
as interface `1`, `String`, interface `2`, `I4`. -/
theorem handle_GenericTypeInstSig_order_witness :
    signature_handler_base.handle_GenericTypeInstSig generic_example recorder
        (.mk (.TypeDef 1) [.mk false (.ElementType .String),
          .mk false (.GenericTypeInstSig (.mk (.TypeDef 2) [.mk false (.ElementType .I4)]))]) []
      = .ok [.handle_interface 1, .handle_ElementType .String, .handle_interface 2,
          .handle_ElementType .I4] :=
  ((handle_GenericTypeInstSig_order generic_example (.TypeDef 1)
      [.mk false (.ElementType .String),
        .mk false (.GenericTypeInstSig (.mk (.TypeDef 2) [.mk false (.ElementType .I4)]))]).1).trans
    rfl

/-! ## Dotted names -/

theorem find_first_none {c : Char} :
    ∀ {l : List Char}, find_first c l = none → c ∉ l := by
  intro l
  induction l with
  | nil => intro _; simp
  | cons x rest ih =>
    intro h
    simp only [find_first] at h
    by_cases hx : x = c
    · simp [hx] at h
    · simp only [hx, if_false, Option.map_eq_none'] at h
      simp only [List.mem_cons, not_or]
      exact ⟨fun hc => hx hc.symm, ih h⟩

theorem find_first_some {c : Char} :
    ∀ {l : List Char} {i : Nat}, find_first c l = some i →
      c ∉ l.take i ∧ l = l.take i ++ c :: l.drop (i + 1) := by
  intro l
  induction l with
  | nil => intro i h; simp [find_first] at h
  | cons x rest ih =>
    intro i h
    simp only [find_first] at h
    by_cases hx : x = c
    · simp only [hx, if_true, Option.some.injEq] at h
      subst h
      simp [hx]
    · simp only [hx, if_false, Option.map_eq_some'] at h
      obtain ⟨j, hj, rfl⟩ := h
      obtain ⟨h1, h2⟩ := ih hj
      refine ⟨?_, ?_⟩
      · simp only [List.take_succ_cons, List.mem_cons, not_or]
        exact ⟨fun hc => hx hc.symm, h1⟩
      · simp only [List.take_succ_cons, List.drop_succ_cons, List.cons_append]
        rw [← h2]

theorem join_dotted_chars_cons (segment : List Char) :
    ∀ rest : List (List Char), rest ≠ [] →
      join_dotted_chars (segment :: rest) = segment ++ '.' :: join_dotted_chars rest := by
  intro rest h
  cases rest with
  | nil => exact absurd rfl h
  | cons r rs => rfl

/-- The loop returns, given more fuel than there are dots left, and adds the
segments of the rest of the string. -/
theorem get_dotted_name_segments_loop_spec (ns : List Char) :
    ∀ (fuel pos : Nat) (segments : List (List Char)),
      (ns.drop pos).count '.' < fuel →
      ∃ r, get_dotted_name_segments_loop ns fuel pos segments = some (segments ++ r) ∧
        r.length = (ns.drop pos).count '.' + 1 ∧
        (∀ segment ∈ r, '.' ∉ segment) ∧
        join_dotted_chars r = ns.drop pos := by
  intro fuel
  induction fuel with
  | zero => intro pos segments h; exact absurd h (Nat.not_lt_zero _)
  | succ fuel ih =>
    intro pos segments h
    simp only [get_dotted_name_segments_loop, string_view_find]
    cases hf : find_first '.' (ns.drop pos) with
    | none =>
      have hnot := find_first_none hf
      refine ⟨[ns.drop pos], rfl, ?_, ?_, rfl⟩
      · simp [List.count_eq_zero_of_not_mem hnot]
      · intro segment hs
        simp only [List.mem_singleton] at hs
        subst hs
        exact hnot
    | some i =>
      obtain ⟨hnot, hsplit⟩ := find_first_some hf
      have hdrop : ns.drop (pos + i + 1) = (ns.drop pos).drop (i + 1) := by
        rw [List.drop_drop]
        congr 1
      have hcount : (ns.drop pos).count '.' = (ns.drop (pos + i + 1)).count '.' + 1 := by
        rw [hdrop]
        conv_lhs => rw [hsplit]
        rw [List.count_append, List.count_eq_zero_of_not_mem hnot, List.count_cons_self]
        omega
      have hlt : (ns.drop (pos + i + 1)).count '.' < fuel := by omega
      obtain ⟨r, hr, hlen, hdots, hjoin⟩ :=
        ih (pos + i + 1) (segments ++ [(ns.drop pos).take (pos + i - pos)]) hlt
      have hsub : pos + i - pos = i := by omega
      rw [hsub] at hr
      refine ⟨(ns.drop pos).take i :: r, ?_, ?_, ?_, ?_⟩
      · simp only [Option.map_some', hsub]
        rw [hr]
        simp
      · simp only [List.length_cons, hlen, hcount]
      · intro segment hs
        rcases List.mem_cons.1 hs with rfl | hs
        · exact hnot
        · exact hdots segment hs
      · have hne : r ≠ [] := by
          intro hnil
          rw [hnil] at hlen
          simp at hlen
        rw [join_dotted_chars_cons _ r hne, hjoin, hdrop]
        exact hsplit.symm

theorem join_dotted_data :
    ∀ r : List (List Char), (join_dotted (r.map String.mk)).data = join_dotted_chars r := by
  intro r
  induction r with
  | nil => rfl
  | cons segment rest ih =>
    cases rest with
    | nil => rfl
    | cons next others =>
      simp only [List.map_cons, join_dotted, join_dotted_chars, String.data_append]
      simp only [List.map_cons] at ih
      rw [ih]
      simp

/-- C20. For every string, `get_dotted_name_segments` returns (given more fuel
than the string has dots) a non-empty list of segments, none of which
contains a dot, whose concatenation with a dot between consecutive segments is
the string, and whose length is the number of dots plus one; the empty string
yields one empty segment. -/
theorem get_dotted_name_segments_spec (ns : String) (fuel : Nat)
    (hfuel : count_dots ns < fuel) :
    (∃ segments, get_dotted_name_segments fuel ns = some segments ∧
      segments ≠ [] ∧
      (∀ segment ∈ segments, '.' ∉ segment.data) ∧
      join_dotted segments = ns ∧
      segments.length = count_dots ns + 1) ∧
    get_dotted_name_segments 1 "" = some [""] := by
  refine ⟨?_, rfl⟩
  obtain ⟨r, hr, hlen, hdots, hjoin⟩ :=
    get_dotted_name_segments_loop_spec ns.data fuel 0 [] (by simpa [count_dots] using hfuel)
  refine ⟨r.map String.mk, ?_, ?_, ?_, ?_, ?_⟩
  · simp only [get_dotted_name_segments, hr, List.nil_append, Option.map_some']
  · intro hnil
    rw [List.map_eq_nil_iff] at hnil
    rw [hnil] at hlen
    simp at hlen
  · intro segment hs
    obtain ⟨chars, hc, rfl⟩ := List.mem_map.1 hs
    exact hdots chars hc
  · apply String.ext
    rw [join_dotted_data, hjoin]
    rfl
  · simpa [count_dots] using hlen

/-- Witness of C20: a namespace of two dots has three segments. -/
theorem get_dotted_name_segments_spec_witness :
    ∃ segments, get_dotted_name_segments 3 "Windows.Foundation.Collections" = some segments ∧
      segments ≠ [] ∧
      (∀ segment ∈ segments, '.' ∉ segment.data) ∧
      join_dotted segments = "Windows.Foundation.Collections" ∧
      segments.length = count_dots "Windows.Foundation.Collections" + 1 :=
  (get_dotted_name_segments_spec "Windows.Foundation.Collections" 3 (by decide)).1

/-! ## Termination of the walk -/

theorem edge_target_error (db : database) (ii : coded_index) (e : Failure)
    (h : edge_target db ii = .error e) : e ≠ Failure.out_of_fuel := by
  cases ii with
  | TypeDef type => simp [edge_target] at h
  | TypeRef type =>
    simp only [edge_target, find_required] at h
    cases hf : db.find type with
    | none => rw [hf] at h; cases h; simp
    | some t => rw [hf] at h; cases h
  | TypeSpec sig =>
    simp only [edge_target, generic_type_definition] at h
    cases hg : sig.GenericType with
    | TypeDef type => rw [hg] at h; cases h
    | TypeRef type =>
      rw [hg] at h
      simp only [find_required] at h
      cases hf : db.find type with
      | none => rw [hf] at h; cases h; simp
      | some t => rw [hf] at h; cases h
    | TypeSpec inner => rw [hg] at h; cases h; simp [throw_invalid]

theorem discovery_edge_budget (db : database) (ii : coded_index) (N : Nat)
    (hN : ∀ b, edge_target db ii = .ok b → ∀ fuel, N ≤ fuel → ∀ w,
      concat_visits (fun jj => discovery_sequence db fuel w jj) (db.InterfaceImpl b)
        ≠ .error Failure.out_of_fuel) :
    ∀ fuel, N + 2 ≤ fuel → ∀ w,
      discovery_sequence db fuel w ii ≠ .error Failure.out_of_fuel := by
  intro fuel hfuel w
  obtain ⟨f, rfl⟩ : ∃ f, fuel = f + 2 := ⟨fuel - 2, by omega⟩
  have hf : N ≤ f := by omega
  have node : ∀ (b : TypeDef) (w : writer), edge_target db ii = .ok b →
      discovery_sequence_TypeDef db (f + 1) w b ≠ .error Failure.out_of_fuel := by
    intro b w hb hbad
    simp only [discovery_sequence_TypeDef] at hbad
    cases hc : concat_visits (fun jj => discovery_sequence db f
        (w.push_generic_params (db.GenericParam b)) jj) (db.InterfaceImpl b) with
    | error e =>
      rw [hc] at hbad
      cases hbad
      exact hN b hb f hf _ hc
    | ok others => rw [hc] at hbad; cases hbad
  cases ii with
  | TypeDef x =>
    simp only [discovery_sequence]
    exact node x w rfl
  | TypeRef r =>
    simp only [discovery_sequence]
    cases hfind : find_required db r with
    | error e =>
      intro hbad
      cases hbad
      exact edge_target_error db (.TypeRef r) _ hfind rfl
    | ok x => exact node x w hfind
  | TypeSpec sig =>
    simp only [discovery_sequence, discovery_sequence_GenericTypeInstSig]
    cases hg : generic_type_definition db sig with
    | error e =>
      intro hbad
      cases hbad
      exact edge_target_error db (.TypeSpec sig) _ hg rfl
    | ok b =>
      simp only []
      intro hbad
      cases hc : concat_visits (fun jj => discovery_sequence db f
          (w.push_generic_params_sig sig) jj) (db.InterfaceImpl b) with
      | error e =>
        rw [hc] at hbad
        cases hbad
        exact hN b hg f hf _ hc
      | ok others => rw [hc] at hbad; cases hbad

theorem concat_visits_budget (db : database) :
    ∀ edges : List coded_index,
      (∀ ii ∈ edges, ∃ N, ∀ fuel, N ≤ fuel → ∀ w,
        discovery_sequence db fuel w ii ≠ .error Failure.out_of_fuel) →
      ∃ N, ∀ fuel, N ≤ fuel → ∀ w,
        concat_visits (fun ii => discovery_sequence db fuel w ii) edges
          ≠ .error Failure.out_of_fuel := by
  intro edges
  induction edges with
  | nil => intro _; exact ⟨0, fun _ _ _ h => by simp [concat_visits] at h⟩
  | cons ii rest ih =>
    intro h
    obtain ⟨N1, hN1⟩ := h ii (List.mem_cons_self _ _)
    obtain ⟨N2, hN2⟩ := ih (fun jj hj => h jj (List.mem_cons_of_mem _ hj))
    refine ⟨max N1 N2, ?_⟩
    intro fuel hfuel w hbad
    have h1 := hN1 fuel (le_trans (le_max_left _ _) hfuel) w
    have h2 := hN2 fuel (le_trans (le_max_right _ _) hfuel) w
    simp only [concat_visits] at hbad
    cases hv : discovery_sequence db fuel w ii with
    | error e =>
      rw [hv] at hbad
      cases hbad
      exact h1 hv
    | ok first =>
      rw [hv] at hbad
      cases hr : concat_visits (fun ii => discovery_sequence db fuel w ii) rest with
      | error e =>
        rw [hr] at hbad
        cases hbad
        exact h2 hr
      | ok others => rw [hr] at hbad; cases hbad

/-- On a finite acyclic graph the walk of the edges of every node ends, given
enough fuel: with a list or with an exception, never by exhausting the budget. -/
theorem discovery_children_budget (db : database) (start : TypeDef)
    (hfin : graph_finite db start) (hacyc : graph_acyclic db start) :
    ∀ x, reachable db start x → ∃ N, ∀ fuel, N ≤ fuel → ∀ w,
      concat_visits (fun ii => discovery_sequence db fuel w ii) (db.InterfaceImpl x)
        ≠ .error Failure.out_of_fuel := by
  apply reachable_induction db start hfin hacyc
  intro x _ ih
  apply concat_visits_budget
  intro ii hii
  cases hb : edge_target db ii with
  | error e =>
    refine ⟨2, discovery_edge_budget db ii 0 ?_⟩
    intro b hb'
    rw [hb] at hb'
    cases hb'
  | ok b =>
    obtain ⟨N, hN⟩ := ih b ⟨ii, hii, hb⟩
    refine ⟨N + 2, discovery_edge_budget db ii N ?_⟩
    intro b' hb'
    rw [hb] at hb'
    cases hb'
    exact hN

theorem map_ne_out_of_fuel {α β : Type} (f : α → β) (r : Except Failure α)
    (h : r ≠ .error Failure.out_of_fuel) : r.map f ≠ .error Failure.out_of_fuel := by
  cases r with
  | error e =>
    intro hbad
    simp only [Except.map] at hbad
    cases hbad
    exact h rfl
  | ok a => intro hbad; simp [Except.map] at hbad

/-- C19. On a finite acyclic implements graph the edge relation is
well-founded, and the three `collect_required_interfaces` overloads entered at
a node of the graph end, given enough fuel: they return a list or raise, and
never exhaust the recursion budget. -/
theorem collect_required_interfaces_terminates (db : database) (start : TypeDef)
    (hfin : graph_finite db start) (hacyc : graph_acyclic db start) :
    WellFounded (fun b a => reachable db start a ∧ implements db a b) ∧
    ∀ x, reachable db start x → ∃ N, ∀ fuel, N ≤ fuel → ∀ w interfaces,
      collect_required_interfaces_TypeDef db fuel w interfaces x
        ≠ .error Failure.out_of_fuel ∧
      (∀ sig, generic_type_definition db sig = .ok x →
        collect_required_interfaces_GenericTypeInstSig db fuel w interfaces sig
          ≠ .error Failure.out_of_fuel) ∧
      (∀ index, edge_target db index = .ok x →
        collect_required_interfaces db fuel w interfaces index
          ≠ .error Failure.out_of_fuel) := by
  refine ⟨?_, ?_⟩
  · refine ⟨fun x => ?_⟩
    by_cases hx : reachable db start x
    · exact reachable_induction db start hfin hacyc
        (fun x => Acc (fun b a => reachable db start a ∧ implements db a b) x)
        (fun a _ ih => Acc.intro a (fun b hb => ih b hb.2)) x hx
    · exact Acc.intro x (fun b hb => absurd hb.1 hx)
  · intro x hx
    obtain ⟨N, hN⟩ := discovery_children_budget db start hfin hacyc x hx
    refine ⟨N + 2, ?_⟩
    intro fuel hfuel w interfaces
    have hedge : ∀ index, edge_target db index = .ok x → ∀ f, N + 2 ≤ f → ∀ w,
        discovery_sequence db f w index ≠ .error Failure.out_of_fuel := by
      intro index hindex
      apply discovery_edge_budget db index N
      intro b hb
      rw [hindex] at hb
      cases hb
      exact hN
    refine ⟨?_, ?_, ?_⟩
    · rw [(collect_eq_discovery db fuel).1]
      apply map_ne_out_of_fuel
      have := hedge (.TypeDef x) rfl (fuel + 1) (by omega) w
      simpa only [discovery_sequence] using this
    · intro sig hsig
      rw [(collect_eq_discovery db fuel).2.1]
      apply map_ne_out_of_fuel
      have := hedge (.TypeSpec sig) hsig (fuel + 1) (by omega) w
      simpa only [discovery_sequence] using this
    · intro index hindex
      rw [(collect_eq_discovery db fuel).2.2]
      apply map_ne_out_of_fuel
      exact hedge index hindex fuel hfuel w

/-- Witness of C19: the diamond. -/
theorem collect_required_interfaces_terminates_witness :
    WellFounded (fun b a => reachable diamond 0 a ∧ implements diamond a b) ∧
    ∀ x, reachable diamond 0 x → ∃ N, ∀ fuel, N ≤ fuel → ∀ w interfaces,
      collect_required_interfaces_TypeDef diamond fuel w interfaces x
        ≠ .error Failure.out_of_fuel ∧
      (∀ sig, generic_type_definition diamond sig = .ok x →
        collect_required_interfaces_GenericTypeInstSig diamond fuel w interfaces sig
          ≠ .error Failure.out_of_fuel) ∧
      (∀ index, edge_target diamond index = .ok x →
        collect_required_interfaces diamond fuel w interfaces index
          ≠ .error Failure.out_of_fuel) :=
  collect_required_interfaces_terminates diamond 0 diamond_finite (diamond_acyclic 0)

/-! ## A type that reaches itself -/

theorem concat_visits_ok_mem {visit : coded_index → Except Failure (List interface_info)} :
    ∀ {edges : List coded_index} {l : List interface_info},
      concat_visits visit edges = .ok l → ∀ ii ∈ edges, ∃ first, visit ii = .ok first := by
  intro edges
  induction edges with
  | nil => intro l _ ii hii; cases hii
  | cons jj rest ih =>
    intro l hl ii hii
    obtain ⟨first, others, h1, h2, _⟩ := concat_visits_cons_ok hl
    rcases List.mem_cons.1 hii with rfl | hii
    · exact ⟨first, h1⟩
    · exact ih h2 ii hii

/-- When the walk of the edges of `x` returns with some fuel, the walk of the
edges of each definition `x` implements returns with less. -/
theorem discovery_children_descend (db : database) (x b : TypeDef) (hxb : implements db x b)
    (fuel : Nat) (w : writer) (l : List interface_info)
    (h : concat_visits (fun ii => discovery_sequence db fuel w ii) (db.InterfaceImpl x)
      = .ok l) :
    ∃ f, f < fuel ∧ ∃ w1 l1,
      concat_visits (fun ii => discovery_sequence db f w1 ii) (db.InterfaceImpl b)
        = .ok l1 := by
  obtain ⟨ii, hii, hb⟩ := hxb
  obtain ⟨first, hfirst⟩ := concat_visits_ok_mem h ii hii
  have hfirst' : discovery_sequence db fuel w ii = .ok first := hfirst
  have node : ∀ (f1 : Nat) (w : writer) (first : List interface_info),
      discovery_sequence_TypeDef db f1 w b = .ok first →
      ∃ f, f < f1 ∧ ∃ w1 l1,
        concat_visits (fun ii => discovery_sequence db f w1 ii) (db.InterfaceImpl b)
          = .ok l1 := by
    intro f1 w first hn
    cases f1 with
    | zero => simp [discovery_sequence_TypeDef] at hn
    | succ f2 =>
      simp only [discovery_sequence_TypeDef] at hn
      cases hc : concat_visits (fun ii => discovery_sequence db f2
          (w.push_generic_params (db.GenericParam b)) ii) (db.InterfaceImpl b) with
      | error e => rw [hc] at hn; cases hn
      | ok others => exact ⟨f2, Nat.lt_succ_self _, _, others, hc⟩
  cases fuel with
  | zero => simp [discovery_sequence] at hfirst'
  | succ f1 =>
    simp only [discovery_sequence] at hfirst'
    cases ii with
    | TypeDef t =>
      simp only [edge_target] at hb
      cases hb
      obtain ⟨f, hf, rest⟩ := node f1 w first hfirst'
      exact ⟨f, Nat.lt_succ_of_lt hf, rest⟩
    | TypeRef r =>
      simp only [edge_target] at hb
      simp only [hb] at hfirst'
      obtain ⟨f, hf, rest⟩ := node f1 w first hfirst'
      exact ⟨f, Nat.lt_succ_of_lt hf, rest⟩
    | TypeSpec sig =>
      simp only [edge_target] at hb
      cases f1 with
      | zero => simp [discovery_sequence_GenericTypeInstSig] at hfirst'
      | succ f2 =>
        simp only [discovery_sequence_GenericTypeInstSig, hb] at hfirst'
        cases hc : concat_visits (fun ii => discovery_sequence db f2
            (w.push_generic_params_sig sig) ii) (db.InterfaceImpl b) with
        | error e => rw [hc] at hfirst'; cases hfirst'
        | ok others => exact ⟨f2, by omega, _, others, hc⟩

theorem discovery_children_descend_transGen (db : database) (x y : TypeDef)
    (hxy : Relation.TransGen (implements db) x y) :
    ∀ (fuel : Nat) (w : writer) (l : List interface_info),
      concat_visits (fun ii => discovery_sequence db fuel w ii) (db.InterfaceImpl x)
        = .ok l →
      ∃ f, f < fuel ∧ ∃ w1 l1,
        concat_visits (fun ii => discovery_sequence db f w1 ii) (db.InterfaceImpl y)
          = .ok l1 := by
  induction hxy with
  | single h => intro fuel w l hl; exact discovery_children_descend db x _ h fuel w l hl
  | tail _ hbc ih =>
    intro fuel w l hl
    obtain ⟨f, hf, w1, l1, h1⟩ := ih fuel w l hl
    obtain ⟨f', hf', rest⟩ := discovery_children_descend db _ _ hbc f w1 l1 h1
    exact ⟨f', lt_trans hf' hf, rest⟩

/-- The walk of the edges of a definition that reaches itself never returns. -/
theorem discovery_children_cyclic (db : database) (x : TypeDef)
    (hcyc : Relation.TransGen (implements db) x x) :
    ∀ (fuel : Nat) (w : writer) (l : List interface_info),
      concat_visits (fun ii => discovery_sequence db fuel w ii) (db.InterfaceImpl x)
        ≠ .ok l := by
  intro fuel
  induction fuel using Nat.strong_induction_on with
  | _ fuel ih =>
    intro w l hl
    obtain ⟨f, hf, w1, l1, h1⟩ := discovery_children_descend_transGen db x x hcyc fuel w l hl
    exact ih f hf w1 l1 h1

/-- A definition that reaches itself: `get_required_interfaces` returns no list. -/
theorem get_required_interfaces_cyclic (db : database) (printer : type_printer)
    (start : TypeDef) (hcyc : Relation.TransGen (implements db) start start) :
    ∀ (fuel : Nat) (L : List interface_info),
      get_required_interfaces db printer fuel start ≠ .ok L := by
  intro fuel L h
  rw [get_required_interfaces_eq] at h
  cases fuel with
  | zero => simp [required_interfaces_sequence, discovery_sequence_TypeDef, Except.map] at h
  | succ f =>
    simp only [required_interfaces_sequence, discovery_sequence_TypeDef] at h
    cases hc : concat_visits (fun ii => discovery_sequence db f
        ((writer.push_generic_params { printer := printer, generic_param_stack := [] }
          (db.GenericParam start)).push_generic_params (db.GenericParam start)) ii)
        (db.InterfaceImpl start) with
    | error e => rw [hc] at h; cases h
    | ok others => exact discovery_children_cyclic db start hcyc f _ others hc

theorem concat_visits_error {visit : coded_index → Except Failure (List interface_info)} :
    ∀ {edges : List coded_index} {e : Failure},
      concat_visits visit edges = .error e → ∃ ii ∈ edges, visit ii = .error e := by
  intro edges
  induction edges with
  | nil => intro e h; simp [concat_visits] at h
  | cons jj rest ih =>
    intro e h
    simp only [concat_visits] at h
    cases hv : visit jj with
    | error e1 =>
      rw [hv] at h
      cases h
      exact ⟨jj, List.mem_cons_self _ _, hv⟩
    | ok first =>
      rw [hv] at h
      cases hr : concat_visits visit rest with
      | error e1 =>
        rw [hr] at h
        cases h
        obtain ⟨ii, hii, he⟩ := ih hr
        exact ⟨ii, List.mem_cons_of_mem _ hii, he⟩
      | ok others => rw [hr] at h; cases h

/-- Where every edge of the graph resolves, the only way the walk stops
without a list is by exhausting the recursion budget. -/
theorem discovery_resolvable_error (db : database) (start : TypeDef)
    (hres : edges_resolvable db start) :
    ∀ (fuel : Nat) (x : TypeDef), reachable db start x → ∀ (w : writer) (e : Failure),
      concat_visits (fun ii => discovery_sequence db fuel w ii) (db.InterfaceImpl x)
        = .error e → e = Failure.out_of_fuel := by
  intro fuel
  induction fuel using Nat.strong_induction_on with
  | _ fuel ih =>
    intro x hx w e h
    obtain ⟨ii, hii, he⟩ := concat_visits_error h
    have he' : discovery_sequence db fuel w ii = .error e := he
    obtain ⟨b, hb⟩ := hres x hx ii hii
    have hbr : reachable db start b := hx.tail ⟨ii, hii, hb⟩
    have node : ∀ (f1 : Nat) (w : writer), f1 < fuel →
        discovery_sequence_TypeDef db f1 w b = .error e → e = Failure.out_of_fuel := by
      intro f1 w hlt hn
      cases f1 with
      | zero => simp only [discovery_sequence_TypeDef] at hn; cases hn; rfl
      | succ f2 =>
        simp only [discovery_sequence_TypeDef] at hn
        cases hc : concat_visits (fun ii => discovery_sequence db f2
            (w.push_generic_params (db.GenericParam b)) ii) (db.InterfaceImpl b) with
        | error e1 =>
          rw [hc] at hn
          cases hn
          exact ih f2 (by omega) b hbr _ _ hc
        | ok others => rw [hc] at hn; cases hn
    cases fuel with
    | zero => simp only [discovery_sequence] at he'; cases he'; rfl
    | succ f1 =>
      simp only [discovery_sequence] at he'
      cases ii with
      | TypeDef t =>
        simp only [edge_target] at hb
        cases hb
        exact node f1 w (Nat.lt_succ_self _) he'
      | TypeRef r =>
        simp only [edge_target] at hb
        simp only [hb] at he'
        exact node f1 w (Nat.lt_succ_self _) he'
      | TypeSpec sig =>
        simp only [edge_target] at hb
        cases f1 with
        | zero => simp only [discovery_sequence_GenericTypeInstSig] at he'; cases he'; rfl
        | succ f2 =>
          simp only [discovery_sequence_GenericTypeInstSig, hb] at he'
          cases hc : concat_visits (fun ii => discovery_sequence db f2
              (w.push_generic_params_sig sig) ii) (db.InterfaceImpl b) with
          | error e1 =>
            rw [hc] at he'
            cases he'
            exact ih f2 (by omega) b hbr _ _ hc
          | ok others => rw [hc] at he'; cases he'

/-- A definition that reaches itself through edges that all resolve: every
recursion budget is exhausted. -/
theorem get_required_interfaces_cyclic_resolvable (db : database) (printer : type_printer)
    (start : TypeDef) (hcyc : Relation.TransGen (implements db) start start)
    (hres : edges_resolvable db start) (fuel : Nat) :
    get_required_interfaces db printer fuel start = .error Failure.out_of_fuel := by
  cases hget : get_required_interfaces db printer fuel start with
  | ok L => exact absurd hget (get_required_interfaces_cyclic db printer start hcyc fuel L)
  | error e =>
    rw [get_required_interfaces_eq] at hget
    cases fuel with
    | zero =>
      simp only [required_interfaces_sequence, discovery_sequence_TypeDef, Except.map] at hget
      cases hget
      rfl
    | succ f =>
      simp only [required_interfaces_sequence, discovery_sequence_TypeDef] at hget
      cases hc : concat_visits (fun ii => discovery_sequence db f
          ((writer.push_generic_params { printer := printer, generic_param_stack := [] }
            (db.GenericParam start)).push_generic_params (db.GenericParam start)) ii)
          (db.InterfaceImpl start) with
      | error e1 =>
        rw [hc] at hget
        simp only [Except.map] at hget
        cases hget
        rw [discovery_resolvable_error db start hres f start Relation.ReflTransGen.refl _ _ hc]
      | ok others =>
        rw [hc] at hget
        simp [Except.map] at hget

theorem self_implementing_cycle : Relation.TransGen (implements self_implementing) 0 0 :=
  Relation.TransGen.single ⟨.TypeDef 0, by simp [self_implementing], rfl⟩

theorem self_implementing_resolvable : edges_resolvable self_implementing 0 := by
  intro x _ ii hii
  by_cases hx : x = 0
  · subst hx
    simp only [self_implementing, if_true, List.mem_singleton] at hii
    subst hii
    exact ⟨0, rfl⟩
  · simp [self_implementing, hx] at hii

/-- C18, as stated, fails: the interface `0` that implements itself reaches
itself, and `get_required_interfaces` raises no data-integrity error on it;
whatever the recursion budget, the budget is exhausted. -/
theorem get_required_interfaces_cycle_not_detected :
    Relation.TransGen (implements self_implementing) 0 0 ∧
    (∀ fuel, get_required_interfaces self_implementing example_printer fuel 0
      = .error Failure.out_of_fuel) ∧
    get_required_interfaces self_implementing example_printer 8 0
      = .error Failure.out_of_fuel :=
  ⟨self_implementing_cycle,
   get_required_interfaces_cyclic_resolvable self_implementing example_printer 0
     self_implementing_cycle self_implementing_resolvable,
   rfl⟩

/-- C18, amended. For a type definition that reaches itself through one or
more implements edges, `get_required_interfaces` never returns a list; it has
no check for a type met again, and when every edge resolves it raises nothing
either: the recursion goes on until the budget is exhausted, whatever the
budget. -/
theorem get_required_interfaces_on_cycle (db : database) (printer : type_printer)
    (start : TypeDef) (hcyc : Relation.TransGen (implements db) start start) :
    (∀ (fuel : Nat) (L : List interface_info),
      get_required_interfaces db printer fuel start ≠ .ok L) ∧
    (edges_resolvable db start →
      ∀ fuel, get_required_interfaces db printer fuel start = .error Failure.out_of_fuel) :=
  ⟨get_required_interfaces_cyclic db printer start hcyc,
   fun hres fuel => get_required_interfaces_cyclic_resolvable db printer start hcyc hres fuel⟩

/-- Witness of amended C18: the self-implementing interface. -/
theorem get_required_interfaces_on_cycle_witness :
    (∀ (fuel : Nat) (L : List interface_info),
      get_required_interfaces self_implementing example_printer fuel 0 ≠ .ok L) ∧
    (edges_resolvable self_implementing 0 →
      ∀ fuel, get_required_interfaces self_implementing example_printer fuel 0
        = .error Failure.out_of_fuel) :=
  get_required_interfaces_on_cycle self_implementing example_printer 0 self_implementing_cycle

end xlang
